import Mathlib

/-!
# Page-level flash translation layer: mapping, free-page allocation and the LRU cache

A shallow embedding of `src/ftl/page/page-map.c`, `src/include/page.h` and `src/lru.c`.

Conventions of the embedding.

* The device geometry (`device_get_total_size`, `device_get_page_size`,
  `device_get_pages_per_segment`, `device_get_nr_segments`) is read-only input and is a record
  of natural numbers.
* A use-bitmap (`uint64_t *use_bits`) is the natural number whose binary digits are the bits of
  the word array, bit `i` of the bitmap being binary digit `i`.
* The arrays `segments` and `trans_map` are total functions from indices.
* Values that the code narrows or lets wrap are reduced explicitly: the sum
  `alloc_segnum + idx` and the counter `nr_valid_pages + 1` are 64-bit, the table size in bytes
  is a `size_t` product, the table entry is a `uint32_t`, the packed address is a 32-bit scalar
  with a bit-field, the cache `size` is a `uint64_t`.
* The release callback of the cache is a function returning the callback's `int`; the sequence of
  its invocations is returned next to the result of each cache operation.
* Memory allocation in the cache is an input: a flag tells whether `malloc` succeeds.
-/

namespace FTL

/-! ## Device geometry and device addresses -/

/-- Geometry answered by the device queries used in `page-map.c` and `page.h`. -/
structure device where
  total_size : Nat
  page_size : Nat
  pages_per_segment : Nat
  nr_segments : Nat
deriving DecidableEq, Repr

/-- Modelled from the spec: the layout of `struct device_address` (its header `device.h` is not
part of the sources).  The scalar `lpn` is 32 bits wide; the bit-field `format.block` occupies
`block_bits` bits starting at bit `block_shift` (the segment index is kept in the high bits, the
in-segment offset below it); `PADDR_EMPTY` is the reserved scalar meaning "no address". -/
structure device_address_format where
  block_shift : Nat
  block_bits : Nat
  PADDR_EMPTY : Nat
deriving DecidableEq, Repr

/-- The union `struct device_address`, represented by its scalar member `lpn`. -/
structure device_address where
  lpn : Nat
deriving DecidableEq, Repr

/-- Lines 68-70 of `page_ftl_get_free_page`: `paddr.lpn = 0; paddr.format.block = segnum;
paddr.lpn |= offset;`.  The store to the bit-field keeps the low `block_bits` bits of `segnum`. -/
def device_address_pack (fmt : device_address_format) (segnum offset : Nat) : device_address :=
  { lpn := ((((segnum % 2 ^ fmt.block_bits) <<< fmt.block_shift) ||| offset) % 2 ^ 32) }

/-- Reading the bit-field `format.block` of an address. -/
def device_address_block (fmt : device_address_format) (a : device_address) : Nat :=
  (a.lpn >>> fmt.block_shift) % 2 ^ fmt.block_bits

/-! ## Bitmap helpers -/

/-- Modelled from the spec: reading one use-bit ("set = slot claimed"); `bits.h` is not part of
the sources. -/
def get_bit (bits : Nat) (i : Nat) : Bool :=
  bits.testBit i

/-- Modelled from the spec: `set_bit(bits, i)` of `bits.h` (not part of the sources): "set it". -/
def set_bit (bits : Nat) (i : Nat) : Nat :=
  bits ||| (1 <<< i)

/-- Modelled from the spec: `find_first_zero_bit(bits, size, idx)` of `bits.h` (not part of the
sources): "scan the segment's bitmap for the first unset bit starting at offset 0".  The answer
`none` stands for `BITS_NOT_FOUND`. -/
def find_first_zero_bit (bits size idx : Nat) : Option Nat :=
  (List.range' idx (size - idx)).find? (fun i => !get_bit bits i)

/-- Number of unset bits among the first `n` use-bits. -/
def nr_unset_bits (bits n : Nat) : Nat :=
  ((List.range n).filter (fun i => !get_bit bits i)).length

/-- Number of set bits among the first `n` use-bits. -/
def nr_set_bits (bits n : Nat) : Nat :=
  ((List.range n).filter (fun i => get_bit bits i)).length

/-! ## The page FTL state -/

/-- The record `struct page_ftl_segment`; `lba_list` is not touched by `page-map.c`. -/
structure page_ftl_segment where
  nr_free_pages : Nat
  nr_valid_pages : Nat
  use_bits : Nat
deriving DecidableEq, Repr

/-- The record `struct page_ftl`; the geometry behind `dev` is passed next to it. -/
structure page_ftl where
  trans_map : Nat → Nat
  alloc_segnum : Nat
  segments : Nat → page_ftl_segment

/-- Outcome of one call of `page_ftl_get_free_page`: the returned address and the state after the
call.  `probes` lists the segment numbers computed on line 52 in order, and `claimed` is the
`(segnum, offset)` pair of lines 68-72, or `none` when the call left through the out-of-space
branch of lines 47-51. -/
structure free_page_result where
  paddr : device_address
  pgftl : page_ftl
  probes : List Nat
  claimed : Option (Nat × Nat)

/-- The loop of `page_ftl_get_free_page` from the label `retry` (lines 46-78), entered with the
loop counter `idx`.  The first argument bounds the number of passes through the label; the third
collects the probed segment numbers.  The cursor `alloc_segnum` is written on line 60, before the
bitmap is searched; the sum of line 52 is a `uint64_t` sum and the counter of line 76 a 64-bit
counter.  `find_first_zero_bit` answering `none` is the test of line 63 against
`BITS_NOT_FOUND`. -/
def get_free_page_retry (dev : device) (fmt : device_address_format) :
    Nat → Nat → List Nat → page_ftl → Option free_page_result
  | 0, _, _, _ => none
  | fuel + 1, idx, probes, pgftl =>
    if idx = dev.nr_segments then
      some { paddr := { lpn := fmt.PADDR_EMPTY }, pgftl := pgftl, probes := probes,
             claimed := none }
    else
      let segnum := ((pgftl.alloc_segnum + idx) % 2 ^ 64) % dev.nr_segments
      let idx := idx + 1
      let segment := pgftl.segments segnum
      let nr_free_pages := segment.nr_free_pages
      if nr_free_pages = 0 then
        get_free_page_retry dev fmt fuel idx (probes ++ [segnum]) pgftl
      else
        let pgftl := { pgftl with alloc_segnum := segnum }
        match find_first_zero_bit segment.use_bits dev.pages_per_segment 0 with
        | none => get_free_page_retry dev fmt fuel idx (probes ++ [segnum]) pgftl
        | some offset =>
          let paddr := device_address_pack fmt segnum offset
          let segment := { segment with use_bits := set_bit segment.use_bits offset,
                                        nr_free_pages := nr_free_pages - 1 }
          let segment := { segment with
                             nr_valid_pages := (segment.nr_valid_pages + 1) % 2 ^ 64 }
          some { paddr := paddr,
                 pgftl := { pgftl with segments := Function.update pgftl.segments segnum segment },
                 probes := probes ++ [segnum],
                 claimed := some (segnum, offset) }

/-- The function `page_ftl_get_free_page`: the loop is entered with `idx = 0`; it passes the label
at most `nr_segments + 1` times. -/
def page_ftl_get_free_page (dev : device) (fmt : device_address_format) (pgftl : page_ftl) :
    Option free_page_result :=
  get_free_page_retry dev fmt (dev.nr_segments + 1) 0 [] pgftl

/-- Sequential calls of `page_ftl_get_free_page`: `k` calls, each on the state left by the one
before; every call is listed with the state it started from. -/
def get_free_pages (dev : device) (fmt : device_address_format) :
    Nat → page_ftl → Option (List (page_ftl × free_page_result))
  | 0, _ => some []
  | k + 1, pgftl =>
    match page_ftl_get_free_page dev fmt pgftl with
    | none => none
    | some r =>
      match get_free_pages dev fmt k r.pgftl with
      | none => none
      | some rest => some ((pgftl, r) :: rest)

/-! ## The translation table -/

/-- The constant `sizeof(uint32_t)`. -/
def sizeof_uint32 : Nat := 4

/-- The errno value `EINVAL`. -/
def EINVAL : Int := 22

/-- The errno value `ENOMEM`. -/
def ENOMEM : Int := 12

/-- The inline function `page_ftl_get_map_size` of `page.h`: the table size in bytes, a `size_t`
product. -/
def page_ftl_get_map_size (dev : device) : Nat :=
  ((dev.total_size / dev.page_size + 1) * sizeof_uint32) % 2 ^ 64

/-- The inline function `page_ftl_get_lpn` of `page.h`. -/
def page_ftl_get_lpn (dev : device) (sector : Nat) : Nat :=
  sector / dev.page_size

/-- The function `page_ftl_update_map`: the returned `int` and the state after the call.  The
parameter `ppn` and the table entries are `uint32_t`. -/
def page_ftl_update_map (dev : device) (pgftl : page_ftl) (sector ppn : Nat) : Int × page_ftl :=
  let lpn := page_ftl_get_lpn dev sector
  let map_size := page_ftl_get_map_size dev / sizeof_uint32
  if lpn ≥ map_size then
    (-EINVAL, pgftl)
  else
    (0, { pgftl with trans_map := Function.update pgftl.trans_map lpn (ppn % 2 ^ 32) })

/-- The function `page_ftl_get_map`; it only reads the state. -/
def page_ftl_get_map (dev : device) (fmt : device_address_format) (pgftl : page_ftl)
    (sector : Nat) : device_address :=
  let lpn := page_ftl_get_lpn dev sector
  let map_size := page_ftl_get_map_size dev / sizeof_uint32
  if lpn ≥ map_size then
    { lpn := fmt.PADDR_EMPTY }
  else
    { lpn := pgftl.trans_map lpn }

/-! ## The LRU cache (`lru.c`)

The circular doubly-linked list around the sentinel `nil` (`cache->head == &cache->nil`) is the
list `nodes` of the nodes met when following `next` from `head->next`: its first element is
`head->next`, its last element is `head->prev`. -/

/-- The payload of `struct lru_node`: `key` is a `uint64_t`, `value` a `uintptr_t`. -/
structure lru_node where
  key : Nat
  value : Nat
deriving DecidableEq, Repr

/-- The record `struct lru_cache`.  `deallocate = none` is the null callback. -/
structure lru_cache where
  nil : lru_node
  nodes : List lru_node
  deallocate : Option (Nat → Nat → Int)
  capacity : Nat
  size : Nat

/-- A pointer into the list of a cache: the sentinel `head`, or the node at position `i` counted
from `head->next`. -/
inductive lru_ptr where
  | head : lru_ptr
  | node (i : Nat) : lru_ptr
deriving DecidableEq, Repr

/-- The node a pointer refers to. -/
def lru_deref (cache : lru_cache) : lru_ptr → lru_node
  | lru_ptr.head => cache.nil
  | lru_ptr.node i => cache.nodes.getD i cache.nil

/-- The pointer `head->prev`: the last node of the list, the sentinel itself when the list is
empty. -/
def lru_head_prev (cache : lru_cache) : lru_ptr :=
  match cache.nodes.length with
  | 0 => lru_ptr.head
  | n + 1 => lru_ptr.node n

/-- The function `lru_init`; `mem` tells whether `malloc` succeeds.  The sentinel gets
`key = -1` (as a `uint64_t`) and a null value. -/
def lru_init (mem : Bool) (capacity : Nat) (deallocate : Option (Nat → Nat → Int)) :
    Option lru_cache :=
  if capacity = 0 then none
  else if mem then
    some { nil := { key := 2 ^ 64 - 1, value := 0 }, nodes := [], deallocate := deallocate,
           capacity := capacity, size := 0 }
  else none

/-- The function `lru_alloc_node`; `mem` tells whether `malloc` succeeds. -/
def lru_alloc_node (mem : Bool) (key value : Nat) : Option lru_node :=
  if mem then some { key := key, value := value } else none

/-- The function `lru_delete_node(head, deleted)`: refuses the sentinel, unlinks any other node. -/
def lru_delete_node (cache : lru_cache) : lru_ptr → Int × lru_cache
  | lru_ptr.head => (-EINVAL, cache)
  | lru_ptr.node i => (0, { cache with nodes := cache.nodes.eraseIdx i })

/-- The function `__lru_do_evict`: the returned `int`, the cache after the call and the callback
invocations `(key, value)` made by it.  The result of `lru_delete_node` is dropped, as on line 90.
`lru_dealloc_node` releases the memory of the target after the callback has run and changes no
link. -/
def __lru_do_evict (cache : lru_cache) : Int × lru_cache × List (Nat × Nat) :=
  let target := lru_head_prev cache
  let tnode := lru_deref cache target
  let cache1 := (lru_delete_node cache target).2
  match cache.deallocate with
  | some f => (f tnode.key tnode.value, cache1, [(tnode.key, tnode.value)])
  | none => (0, cache1, [])

/-- The function `lru_do_evict(cache, nr_evict)`: the loop runs `nr_evict` times unless the
callback answers non-zero; `cache->size -= 1` is `uint64_t` arithmetic. -/
def lru_do_evict : lru_cache → Nat → Int × lru_cache × List (Nat × Nat)
  | cache, 0 => (0, cache, [])
  | cache, n + 1 =>
    let r := __lru_do_evict cache
    if r.1 ≠ 0 then r
    else
      let cache1 := { r.2.1 with size := (r.2.1.size + (2 ^ 64 - 1)) % 2 ^ 64 }
      let r2 := lru_do_evict cache1 n
      (r2.1, r2.2.1, r.2.2 ++ r2.2.2)

/-- The function `lru_node_insert(node, newnode)`: links `newnode` right after `node`. -/
def lru_node_insert (cache : lru_cache) (newnode : lru_node) : lru_ptr → lru_cache
  | lru_ptr.head => { cache with nodes := newnode :: cache.nodes }
  | lru_ptr.node i =>
    { cache with nodes := cache.nodes.take (i + 1) ++ newnode :: cache.nodes.drop (i + 1) }

/-- The function `lru_put`.  `nr_evict` is the value of `lru_get_evict_size(cache)` (declared in
`lru.h`, which is not part of the sources) and `mem` tells whether `malloc` succeeds.  The result
of `lru_do_evict` is dropped, as on line 132. -/
def lru_put (nr_evict : Nat) (mem : Bool) (cache : lru_cache) (key value : Nat) :
    Int × lru_cache × List (Nat × Nat) :=
  let ev := if cache.size ≥ cache.capacity then lru_do_evict cache nr_evict else (0, cache, [])
  let cache1 := ev.2.1
  match lru_alloc_node mem key value with
  | none => (-ENOMEM, cache1, ev.2.2)
  | some node =>
    let cache2 := lru_node_insert cache1 node lru_ptr.head
    (0, { cache2 with size := (cache2.size + 1) % 2 ^ 64 }, ev.2.2)

/-- The scan of `lru_find_node` over the nodes after `head`: position of the first node with the
given key. -/
def lru_scan (key : Nat) : List lru_node → Option Nat
  | [] => none
  | n :: rest => if n.key = key then some 0 else (lru_scan key rest).map (fun i => i + 1)

/-- The function `lru_find_node`: `none` is the null pointer. -/
def lru_find_node (cache : lru_cache) (key : Nat) : Option lru_ptr :=
  (lru_scan key cache.nodes).map lru_ptr.node

/-- The function `lru_get` (assertions enabled): the returned value and the cache after the
call. -/
def lru_get (cache : lru_cache) (key : Nat) : Nat × lru_cache :=
  match lru_find_node cache key with
  | none => (0, cache)
  | some p =>
    let node := lru_deref cache p
    let cache1 := (lru_delete_node cache p).2
    let cache2 := lru_node_insert cache1 node lru_ptr.head
    (node.value, cache2)

/-- The loop of `lru_free` over the nodes from `head->next`: the returned `int` and the callback
invocations `(key, value)` in the order they are made. -/
def lru_free_loop (deallocate : Option (Nat → Nat → Int)) :
    List lru_node → Int × List (Nat × Nat)
  | [] => (0, [])
  | node :: rest =>
    match deallocate with
    | some f =>
      let ret := f node.key node.value
      if ret ≠ 0 then (ret, [(node.key, node.value)])
      else
        let r := lru_free_loop deallocate rest
        (r.1, (node.key, node.value) :: r.2)
    | none => lru_free_loop deallocate rest

/-- The function `lru_free`: the returned `int`, what is left of the cache (`none` once it has
been freed) and the callback invocations.  On a callback failure the function returns without
touching any link of the list. -/
def lru_free : Option lru_cache → Int × Option lru_cache × List (Nat × Nat)
  | none => (0, none, [])
  | some cache =>
    let r := lru_free_loop cache.deallocate cache.nodes
    if r.1 ≠ 0 then (r.1, some cache, r.2) else (r.1, none, r.2)

/-- One call on the cache interface. -/
inductive lru_call where
  | put (key value : Nat) (mem : Bool) : lru_call
  | get (key : Nat) : lru_call
deriving DecidableEq, Repr

/-- Running a sequence of `lru_put` and `lru_get` calls, each on the cache left by the one
before. -/
def lru_run (nr_evict : Nat) : lru_cache → List lru_call → lru_cache
  | cache, [] => cache
  | cache, lru_call.put key value mem :: rest =>
    lru_run nr_evict (lru_put nr_evict mem cache key value).2.1 rest
  | cache, lru_call.get key :: rest => lru_run nr_evict (lru_get cache key).2 rest

/-- Position of the most recent entry with the given key in the recency order (`0` is the node at
`head->next`, the one inserted or fetched last). -/
def lru_rank (cache : lru_cache) (key : Nat) : Option Nat :=
  lru_scan key cache.nodes

/-- The keys of the resident entries, from `head->next` on. -/
def lru_keys (cache : lru_cache) : List Nat :=
  cache.nodes.map (fun n => n.key)

/-! ## Notions used to state the properties of the allocator -/

/-- The counter/bitmap invariant: in every segment of the device `nr_free_pages` is the number
of unset bits among the first `pages_per_segment` use-bits. -/
def bitmap_synced (dev : device) (pgftl : page_ftl) : Prop :=
  ∀ seg, seg < dev.nr_segments →
    (pgftl.segments seg).nr_free_pages =
      nr_unset_bits (pgftl.segments seg).use_bits dev.pages_per_segment

instance (dev : device) (pgftl : page_ftl) : Decidable (bitmap_synced dev pgftl) :=
  inferInstanceAs (Decidable (∀ seg, seg < dev.nr_segments →
    (pgftl.segments seg).nr_free_pages =
      nr_unset_bits (pgftl.segments seg).use_bits dev.pages_per_segment))

/-- Sum of `nr_free_pages` over the segments `0, ..., n - 1`. -/
def total_free_pages (pgftl : page_ftl) : Nat → Nat
  | 0 => 0
  | n + 1 => total_free_pages pgftl n + (pgftl.segments n).nr_free_pages

/-- The state after claiming the slot `offset` of segment `segnum` (lines 60 and 72-76): the bit
set, the free counter decreased, the 64-bit valid counter increased, the cursor moved to the
segment. -/
def claim_page (pgftl : page_ftl) (segnum offset : Nat) : page_ftl :=
  { pgftl with
    alloc_segnum := segnum,
    segments := Function.update pgftl.segments segnum
      { nr_free_pages := (pgftl.segments segnum).nr_free_pages - 1,
        nr_valid_pages := ((pgftl.segments segnum).nr_valid_pages + 1) % 2 ^ 64,
        use_bits := set_bit (pgftl.segments segnum).use_bits offset } }

/-- A freshly initialised state: every bitmap clear, every segment counting `pages_per_segment`
free pages and no valid page, every table entry empty, the cursor on segment `0`. -/
def fresh_page_ftl (dev : device) (fmt : device_address_format) : page_ftl :=
  { trans_map := fun _ => fmt.PADDR_EMPTY,
    alloc_segnum := 0,
    segments := fun _ =>
      { nr_free_pages := dev.pages_per_segment, nr_valid_pages := 0, use_bits := 0 } }

/-- A small geometry used to evaluate the definitions: two segments of two pages, sixteen pages of
four sectors in total. -/
def sample_device : device :=
  { total_size := 64, page_size := 4, pages_per_segment := 2, nr_segments := 2 }

/-- An address layout used to evaluate the definitions: a 19-bit block field above 13 offset
bits, the all-ones scalar as the empty address. -/
def sample_format : device_address_format :=
  { block_shift := 13, block_bits := 19, PADDR_EMPTY := 2 ^ 32 - 1 }

/-- A state of `sample_device` in which no segment counts a free page and every use-bit is
set. -/
def full_page_ftl : page_ftl :=
  { trans_map := fun _ => 0,
    alloc_segnum := 1,
    segments := fun _ => { nr_free_pages := 0, nr_valid_pages := 2, use_bits := 3 } }

/-! ## Notions used to state the properties of the cache -/

/-- The calls `lru_put(1, 10)`, `lru_put(2, 20)`, `lru_get(1)`, `lru_put(3, 30)` in this order,
with an eviction batch of one: the value fetched by the `lru_get`, the cache after the last call
and the callback invocations of the whole sequence in order. -/
def lru_capacity_two_scenario (cache : lru_cache) : Nat × lru_cache × List (Nat × Nat) :=
  let r1 := lru_put 1 true cache 1 10
  let r2 := lru_put 1 true r1.2.1 2 20
  let r3 := lru_get r2.2.1 1
  let r4 := lru_put 1 true r3.2 3 30
  (r3.1, r4.2.1, r1.2.2 ++ r2.2.2 ++ r4.2.2)

/-- Whether the most recent entry with key `k1` is more recent than the most recent entry with
key `k2` (both resident): it is met earlier when following `next` from `head`, the end where
`lru_put` and `lru_get` link a node and opposite to the end `__lru_do_evict` takes from. -/
def lru_more_recent (cache : lru_cache) (k1 k2 : Nat) : Bool :=
  match lru_rank cache k1, lru_rank cache k2 with
  | some i, some j => decide (i < j)
  | _, _ => false

/-- The resident entries `(key, value)` from the most recently used one to the least recently
used one. -/
def lru_entries (cache : lru_cache) : List (Nat × Nat) :=
  cache.nodes.map (fun n => (n.key, n.value))

/-- A release callback that always succeeds. -/
def release_ok : Nat → Nat → Int := fun _ _ => 0

/-- A release callback that always reports failure. -/
def release_fails : Nat → Nat → Int := fun _ _ => -1

/-- The cache made by `lru_init(capacity, deallocate)` when its allocation succeeds. -/
def lru_fresh (capacity : Nat) (deallocate : Option (Nat → Nat → Int)) : lru_cache :=
  { nil := { key := 2 ^ 64 - 1, value := 0 }, nodes := [], deallocate := deallocate,
    capacity := capacity, size := 0 }

/-- A freshly initialised device as seen by the allocator: every segment counts
`pages_per_segment` free pages and its first `pages_per_segment` use-bits are clear. -/
def is_fresh (dev : device) (pgftl : page_ftl) : Prop :=
  ∀ seg, seg < dev.nr_segments →
    (pgftl.segments seg).nr_free_pages = dev.pages_per_segment ∧
    ∀ i, i < dev.pages_per_segment → get_bit (pgftl.segments seg).use_bits i = false

/-- The shape of the state after `j` claims on a fresh device whose cursor started at `c`: the
`p`-th segment in the cyclic order from `c` has its lowest `j - p * pages_per_segment` slots
claimed (all of them once this reaches `pages_per_segment`), and the cursor, a 64-bit value, is
on the segment of the latest claim. -/
def filled_up_to (dev : device) (c j : Nat) (pgftl : page_ftl) : Prop :=
  (∀ p, p < dev.nr_segments →
    (pgftl.segments ((c + p) % dev.nr_segments)).nr_free_pages =
      dev.pages_per_segment - (j - p * dev.pages_per_segment) ∧
    ∀ i, i < dev.pages_per_segment →
      get_bit (pgftl.segments ((c + p) % dev.nr_segments)).use_bits i =
        decide (i < j - p * dev.pages_per_segment)) ∧
  pgftl.alloc_segnum % dev.nr_segments =
    (c + (j - 1) / dev.pages_per_segment) % dev.nr_segments ∧
  pgftl.alloc_segnum < 2 ^ 64 ∧ (0 < j → pgftl.alloc_segnum < dev.nr_segments)

/-! ## Further notions for the allocator -/

/-- The per-segment predicate on counters and bitmaps: in every segment of the device the number
of set bits among the first `pages_per_segment` use-bits is `pages_per_segment` minus
`nr_free_pages` (written without subtraction). -/
def counters_match_bitmap (dev : device) (pgftl : page_ftl) : Prop :=
  ∀ seg, seg < dev.nr_segments →
    nr_set_bits (pgftl.segments seg).use_bits dev.pages_per_segment
      + (pgftl.segments seg).nr_free_pages = dev.pages_per_segment

instance (dev : device) (pgftl : page_ftl) : Decidable (counters_match_bitmap dev pgftl) :=
  inferInstanceAs (Decidable (∀ seg, seg < dev.nr_segments →
    nr_set_bits (pgftl.segments seg).use_bits dev.pages_per_segment
      + (pgftl.segments seg).nr_free_pages = dev.pages_per_segment))

/-- A geometry of three segments of one page each. -/
def three_segment_device : device :=
  { total_size := 12, page_size := 4, pages_per_segment := 1, nr_segments := 3 }

/-- A state of `three_segment_device` with the cursor on segment 0: segment 0 is full, segment 1
counts one free page although its only use-bit is set, segment 2 counts one free page and its
use-bit is clear. -/
def mismatched_page_ftl : page_ftl :=
  { trans_map := fun _ => 0,
    alloc_segnum := 0,
    segments := fun seg =>
      if seg = 0 then { nr_free_pages := 0, nr_valid_pages := 1, use_bits := 1 }
      else if seg = 1 then { nr_free_pages := 1, nr_valid_pages := 1, use_bits := 1 }
      else { nr_free_pages := 1, nr_valid_pages := 0, use_bits := 0 } }

/-- A state of `sample_device` with the cursor on segment 0 and no unset use-bit: segment 0
counts no free page, segment 1 counts one free page although both its use-bits are set. -/
def stale_counter_page_ftl : page_ftl :=
  { trans_map := fun _ => 0,
    alloc_segnum := 0,
    segments := fun seg =>
      if seg = 0 then { nr_free_pages := 0, nr_valid_pages := 2, use_bits := 3 }
      else { nr_free_pages := 1, nr_valid_pages := 2, use_bits := 3 } }

/-- The largest geometry the layout `sample_format` has fields for: `2^19` segments of `2^13`
pages. -/
def full_geometry_device : device :=
  { total_size := 2 ^ 34, page_size := 4, pages_per_segment := 2 ^ 13, nr_segments := 2 ^ 19 }

/-- A state of `full_geometry_device` that satisfies the counter/bitmap invariant: the cursor is
on the last segment and every segment has only its last slot left. -/
def last_slot_page_ftl : page_ftl :=
  { trans_map := fun _ => 0,
    alloc_segnum := 2 ^ 19 - 1,
    segments := fun _ =>
      { nr_free_pages := 1, nr_valid_pages := 2 ^ 13 - 1, use_bits := 2 ^ (2 ^ 13 - 1) - 1 } }

/-! ## Further notions for the cache -/

/-- A release callback that reports failure on key 1 and succeeds on every other key. -/
def release_fails_on_key_one : Nat → Nat → Int := fun k _ => if k = 1 then -1 else 0

/-- The cache of capacity 2 holding key 2 (most recent) and key 1, made by `lru_put(1, 10)` and
`lru_put(2, 20)` on a fresh cache with the callback `release_fails_on_key_one`. -/
def lru_two_entries : lru_cache :=
  lru_run 1 (lru_fresh 2 (some release_fails_on_key_one))
    [lru_call.put 1 10 true, lru_call.put 2 20 true]

/-- The full cache of capacity 1 holding key 1, made by `lru_put(1, 10)` on a fresh cache with
the callback `release_fails`. -/
def lru_full_failing : lru_cache :=
  (lru_put 1 true (lru_fresh 1 (some release_fails)) 1 10).2.1

/-- The shape the interface keeps a cache in while the release callback succeeds: `size` is the
number of linked nodes, it does not exceed `capacity`, and `capacity` is not zero. -/
def lru_well_formed (cache : lru_cache) : Prop :=
  cache.size = cache.nodes.length ∧ cache.size ≤ cache.capacity ∧ 0 < cache.capacity

/-! ## States and layouts at the limits of the integer types -/

/-- A state of `three_segment_device` with the cursor at `2^64 - 1`: the segments 0 and 1 are
full, segment 2 counts one free page and its use-bit is clear. -/
def wrapped_cursor_page_ftl : page_ftl :=
  { trans_map := fun _ => 0,
    alloc_segnum := 2 ^ 64 - 1,
    segments := fun seg =>
      if seg = 2 then { nr_free_pages := 1, nr_valid_pages := 0, use_bits := 0 }
      else { nr_free_pages := 0, nr_valid_pages := 1, use_bits := 1 } }

/-- A geometry of two segments of three pages each. -/
def two_by_three_device : device :=
  { total_size := 24, page_size := 4, pages_per_segment := 3, nr_segments := 2 }

/-- An address layout with a single offset bit below a 31-bit block field. -/
def narrow_format : device_address_format :=
  { block_shift := 1, block_bits := 31, PADDR_EMPTY := 2 ^ 32 - 1 }

/-- A geometry whose translation table has `2^62 + 1` entries of four bytes: `2^62` pages of one
sector, in one segment. -/
def huge_table_device : device :=
  { total_size := 2 ^ 62, page_size := 1, pages_per_segment := 2 ^ 62, nr_segments := 1 }

/-- A geometry of seven segments of one page each. -/
def seven_segment_device : device :=
  { total_size := 28, page_size := 4, pages_per_segment := 1, nr_segments := 7 }

/-- A state of `seven_segment_device` with the cursor at `2^64 - 1`: the segments 0 and 2 count
one free page and have their use-bit clear, the others are full; the valid counter of segment 0
is `2^64 - 1`. -/
def wrapped_cursor_seven_page_ftl : page_ftl :=
  { trans_map := fun _ => 0,
    alloc_segnum := 2 ^ 64 - 1,
    segments := fun seg =>
      if seg = 0 then { nr_free_pages := 1, nr_valid_pages := 2 ^ 64 - 1, use_bits := 0 }
      else if seg = 2 then { nr_free_pages := 1, nr_valid_pages := 0, use_bits := 0 }
      else { nr_free_pages := 0, nr_valid_pages := 1, use_bits := 1 } }

/-- No free page is counted where a wrapped probe sum would skip it: either the sums
`alloc_segnum + idx` of one call stay below `2^64`, or the cursor is a segment number and the
segments from `2^64 - nr_segments` up to the cursor count no free page. -/
def probes_reach_free (dev : device) (pgftl : page_ftl) : Prop :=
  pgftl.alloc_segnum + dev.nr_segments ≤ 2 ^ 64 ∨
  (pgftl.alloc_segnum < dev.nr_segments ∧ dev.nr_segments ≤ 2 ^ 64 ∧
    ∀ seg, 2 ^ 64 - dev.nr_segments ≤ seg → seg < pgftl.alloc_segnum →
      (pgftl.segments seg).nr_free_pages = 0)

/-! ## Bitmap facts -/

theorem get_bit_set_bit (bits i j : Nat) :
    get_bit (set_bit bits i) j = (get_bit bits j || decide (i = j)) := by
  simp [get_bit, set_bit, Nat.testBit_or, Nat.one_shiftLeft, Nat.testBit_two_pow]

theorem find_first_zero_bit_some {bits size off : Nat}
    (h : find_first_zero_bit bits size 0 = some off) :
    off < size ∧ get_bit bits off = false ∧ ∀ j, j < off → get_bit bits j = true := by
  unfold find_first_zero_bit at h
  rw [List.find?_range'_eq_some] at h
  simp at h
  exact ⟨h.2.1, h.1, h.2.2⟩

theorem find_first_zero_bit_none {bits size : Nat}
    (h : find_first_zero_bit bits size 0 = none) :
    ∀ j, j < size → get_bit bits j = true := by
  unfold find_first_zero_bit at h
  rw [List.find?_range'_eq_none] at h
  intro j hj
  have := h j (by omega) (by omega)
  simpa using this

theorem nr_unset_bits_succ (bits n : Nat) :
    nr_unset_bits bits (n + 1) = nr_unset_bits bits n + (if get_bit bits n then 0 else 1) := by
  unfold nr_unset_bits
  rw [List.range_succ, List.filter_append, List.length_append]
  cases h : get_bit bits n <;> simp [h]

theorem nr_unset_bits_zero (bits : Nat) : nr_unset_bits bits 0 = 0 := by
  simp [nr_unset_bits]

theorem nr_unset_bits_eq_zero {bits : Nat} :
    ∀ {n : Nat}, (∀ j, j < n → get_bit bits j = true) → nr_unset_bits bits n = 0 := by
  intro n
  induction n with
  | zero => intro _; exact nr_unset_bits_zero bits
  | succ n ih =>
    intro h
    rw [nr_unset_bits_succ, ih (fun j hj => h j (by omega)), h n (by omega)]
    simp

theorem nr_unset_bits_pos {bits : Nat} :
    ∀ {n i : Nat}, i < n → get_bit bits i = false → 0 < nr_unset_bits bits n := by
  intro n
  induction n with
  | zero => intro i h; omega
  | succ n ih =>
    intro i hi hb
    rw [nr_unset_bits_succ]
    rcases Nat.eq_or_lt_of_le (Nat.le_of_lt_succ hi) with e | l
    · subst e; simp [hb]
    · have := ih l hb
      omega

theorem nr_unset_bits_set_bit_of_le (bits off : Nat) :
    ∀ n, n ≤ off → nr_unset_bits (set_bit bits off) n = nr_unset_bits bits n := by
  intro n
  induction n with
  | zero => intro _; simp [nr_unset_bits_zero]
  | succ n ih =>
    intro h
    rw [nr_unset_bits_succ, nr_unset_bits_succ, ih (by omega), get_bit_set_bit]
    have : ¬ off = n := by omega
    simp [this]

theorem nr_unset_bits_set_bit (bits off : Nat) (hb : get_bit bits off = false) :
    ∀ n, off < n → nr_unset_bits (set_bit bits off) n + 1 = nr_unset_bits bits n := by
  intro n
  induction n with
  | zero => intro h; omega
  | succ n ih =>
    intro h
    rw [nr_unset_bits_succ, nr_unset_bits_succ, get_bit_set_bit]
    rcases Nat.eq_or_lt_of_le (Nat.le_of_lt_succ h) with e | l
    · subst e
      rw [nr_unset_bits_set_bit_of_le bits off off (le_refl _)]
      simp [hb]
    · have := ih l
      have hne : ¬ off = n := by omega
      simp [hne]
      omega

theorem find_first_zero_bit_of_pos {bits size : Nat} (h : 0 < nr_unset_bits bits size) :
    ∃ off, find_first_zero_bit bits size 0 = some off := by
  cases hf : find_first_zero_bit bits size 0 with
  | some off => exact ⟨off, rfl⟩
  | none =>
    have := nr_unset_bits_eq_zero (find_first_zero_bit_none hf)
    omega

/-! ## The probe loop -/

theorem mod_lt_nr_segments {n a idx : Nat} (h1 : idx ≤ n) (h2 : idx ≠ n) :
    ((a + idx) % 2 ^ 64) % n < n :=
  Nat.mod_lt _ (by omega)

/-- The loop always leaves through a `return`, within the passes granted, and adds at most
`nr_segments - idx` probes. -/
theorem get_free_page_retry_returns (dev : device) (fmt : device_address_format) :
    ∀ (fuel idx : Nat) (probes : List Nat) (pgftl : page_ftl),
      idx ≤ dev.nr_segments → dev.nr_segments - idx < fuel →
      ∃ r, get_free_page_retry dev fmt fuel idx probes pgftl = some r ∧
        r.probes.length ≤ probes.length + (dev.nr_segments - idx) ∧
        ∀ seg, seg ∈ r.probes → seg ∈ probes ∨ seg < dev.nr_segments := by
  intro fuel
  induction fuel with
  | zero => intro idx probes pgftl _ h; omega
  | succ fuel ih =>
    intro idx probes pgftl h1 h2
    rw [get_free_page_retry]
    by_cases hidx : idx = dev.nr_segments
    · rw [if_pos hidx]
      exact ⟨_, rfl, by simp, fun seg h => Or.inl h⟩
    · rw [if_neg hidx]
      have hlt : ((pgftl.alloc_segnum + idx) % 2 ^ 64) % dev.nr_segments < dev.nr_segments :=
        mod_lt_nr_segments h1 hidx
      simp only []
      by_cases hfree : (pgftl.segments (((pgftl.alloc_segnum + idx) % 2 ^ 64) % dev.nr_segments)).nr_free_pages = 0
      · rw [if_pos hfree]
        obtain ⟨r, hr, hlen, hmem⟩ := ih (idx + 1)
          (probes ++ [((pgftl.alloc_segnum + idx) % 2 ^ 64) % dev.nr_segments]) pgftl (by omega) (by omega)
        refine ⟨r, hr, ?_, ?_⟩
        · simp at hlen; omega
        · intro seg hs
          rcases hmem seg hs with h | h
          · simp at h
            rcases h with h | h
            · exact Or.inl h
            · exact Or.inr (h ▸ hlt)
          · exact Or.inr h
      · rw [if_neg hfree]
        cases hf : find_first_zero_bit
            (pgftl.segments (((pgftl.alloc_segnum + idx) % 2 ^ 64) % dev.nr_segments)).use_bits
            dev.pages_per_segment 0 with
        | none =>
          simp only []
          obtain ⟨r, hr, hlen, hmem⟩ := ih (idx + 1)
            (probes ++ [((pgftl.alloc_segnum + idx) % 2 ^ 64) % dev.nr_segments])
            { pgftl with alloc_segnum := ((pgftl.alloc_segnum + idx) % 2 ^ 64) % dev.nr_segments }
            (by omega) (by omega)
          refine ⟨r, hr, ?_, ?_⟩
          · simp at hlen; omega
          · intro seg hs
            rcases hmem seg hs with h | h
            · simp at h
              rcases h with h | h
              · exact Or.inl h
              · exact Or.inr (h ▸ hlt)
            · exact Or.inr h
        | some off =>
          simp only []
          refine ⟨_, rfl, ?_, ?_⟩
          · simp; omega
          · intro seg hs
            simp at hs
            rcases hs with h | h
            · exact Or.inl h
            · exact Or.inr (h ▸ hlt)

/-- With no free page counted anywhere the loop probes every remaining index and leaves through
the out-of-space branch, the state untouched. -/
theorem get_free_page_retry_exhausted (dev : device) (fmt : device_address_format) :
    ∀ (fuel idx : Nat) (probes : List Nat) (pgftl : page_ftl),
      (∀ seg, seg < dev.nr_segments → (pgftl.segments seg).nr_free_pages = 0) →
      idx ≤ dev.nr_segments → dev.nr_segments - idx < fuel →
      ∃ tail, tail.length = dev.nr_segments - idx ∧
        get_free_page_retry dev fmt fuel idx probes pgftl =
          some { paddr := { lpn := fmt.PADDR_EMPTY }, pgftl := pgftl,
                 probes := probes ++ tail, claimed := none } := by
  intro fuel
  induction fuel with
  | zero => intro idx probes pgftl _ _ h; omega
  | succ fuel ih =>
    intro idx probes pgftl hz h1 h2
    rw [get_free_page_retry]
    by_cases hidx : idx = dev.nr_segments
    · rw [if_pos hidx]
      exact ⟨[], by simp [hidx], by simp⟩
    · rw [if_neg hidx]
      simp only []
      rw [if_pos (hz _ (mod_lt_nr_segments h1 hidx))]
      obtain ⟨tail, hlen, hr⟩ := ih (idx + 1)
        (probes ++ [((pgftl.alloc_segnum + idx) % 2 ^ 64) % dev.nr_segments]) pgftl hz (by omega) (by omega)
      refine ⟨((pgftl.alloc_segnum + idx) % 2 ^ 64) % dev.nr_segments :: tail, ?_, ?_⟩
      · simp [hlen]; omega
      · rw [hr]; simp

/-- The loop skips the indices whose segment counts no free page and claims the first unset bit
of the first segment that counts one, when that segment has an unset bit. -/
theorem get_free_page_retry_claims (dev : device) (fmt : device_address_format)
    (pgftl : page_ftl) (m off : Nat) (hm : m < dev.nr_segments)
    (hfree : (pgftl.segments (((pgftl.alloc_segnum + m) % 2 ^ 64) % dev.nr_segments)).nr_free_pages ≠ 0)
    (hoff : find_first_zero_bit
      (pgftl.segments (((pgftl.alloc_segnum + m) % 2 ^ 64) % dev.nr_segments)).use_bits
      dev.pages_per_segment 0 = some off) :
    ∀ (fuel idx : Nat) (probes : List Nat),
      idx ≤ m → m - idx < fuel →
      (∀ j, idx ≤ j → j < m →
        (pgftl.segments (((pgftl.alloc_segnum + j) % 2 ^ 64) % dev.nr_segments)).nr_free_pages = 0) →
      ∃ tail, tail.length = m + 1 - idx ∧
        get_free_page_retry dev fmt fuel idx probes pgftl =
          some { paddr := device_address_pack fmt (((pgftl.alloc_segnum + m) % 2 ^ 64) % dev.nr_segments) off,
                 pgftl := claim_page pgftl (((pgftl.alloc_segnum + m) % 2 ^ 64) % dev.nr_segments) off,
                 probes := probes ++ tail,
                 claimed := some (((pgftl.alloc_segnum + m) % 2 ^ 64) % dev.nr_segments, off) } := by
  intro fuel
  induction fuel with
  | zero => intro idx probes _ h; omega
  | succ fuel ih =>
    intro idx probes h1 h2 hz
    rw [get_free_page_retry]
    rw [if_neg (by omega : ¬ idx = dev.nr_segments)]
    simp only []
    rcases Nat.eq_or_lt_of_le h1 with e | l
    · subst e
      rw [if_neg hfree, hoff]
      exact ⟨[((pgftl.alloc_segnum + idx) % 2 ^ 64) % dev.nr_segments], by simp, rfl⟩
    · rw [if_pos (hz idx (le_refl _) l)]
      obtain ⟨tail, hlen, hr⟩ := ih (idx + 1)
        (probes ++ [((pgftl.alloc_segnum + idx) % 2 ^ 64) % dev.nr_segments]) (by omega) (by omega)
        (fun j hj1 hj2 => hz j (by omega) hj2)
      refine ⟨((pgftl.alloc_segnum + idx) % 2 ^ 64) % dev.nr_segments :: tail, by simp [hlen]; omega, ?_⟩
      rw [hr]; simp

/-! ## One successful claim -/

theorem cyclic_probe_reaches {n a seg : Nat} (h : seg < n) : ∃ j, j < n ∧ (a + j) % n = seg := by
  refine ⟨(seg + (n - a % n)) % n, Nat.mod_lt _ (by omega), ?_⟩
  have ha : a % n < n := Nat.mod_lt _ (by omega)
  have e : a + (seg + (n - a % n)) = seg + n * (a / n + 1) := by
    have := Nat.div_add_mod a n
    rw [Nat.mul_add, Nat.mul_one]
    omega
  rw [Nat.add_mod_mod, e, Nat.add_mul_mod_self_left, Nat.mod_eq_of_lt h]

theorem total_free_pages_pos {pgftl : page_ftl} :
    ∀ {n : Nat}, 0 < total_free_pages pgftl n →
      ∃ seg, seg < n ∧ (pgftl.segments seg).nr_free_pages ≠ 0 := by
  intro n
  induction n with
  | zero => intro h; simp [total_free_pages] at h
  | succ n ih =>
    intro h
    rw [total_free_pages] at h
    by_cases hz : (pgftl.segments n).nr_free_pages = 0
    · obtain ⟨seg, h1, h2⟩ := ih (by omega)
      exact ⟨seg, by omega, h2⟩
    · exact ⟨n, by omega, hz⟩

theorem first_free_segment (dev : device) (pgftl : page_ftl)
    (h : 0 < total_free_pages pgftl dev.nr_segments) :
    ∃ m, m < dev.nr_segments ∧
      (pgftl.segments ((pgftl.alloc_segnum + m) % dev.nr_segments)).nr_free_pages ≠ 0 ∧
      ∀ j, j < m →
        (pgftl.segments ((pgftl.alloc_segnum + j) % dev.nr_segments)).nr_free_pages = 0 := by
  obtain ⟨seg, hseg, hne⟩ := total_free_pages_pos h
  obtain ⟨j, hj, hjs⟩ := cyclic_probe_reaches (a := pgftl.alloc_segnum) hseg
  have hex : ∃ m, m < dev.nr_segments ∧
      (pgftl.segments ((pgftl.alloc_segnum + m) % dev.nr_segments)).nr_free_pages ≠ 0 :=
    ⟨j, hj, by rw [hjs]; exact hne⟩
  refine ⟨Nat.find hex, (Nat.find_spec hex).1, (Nat.find_spec hex).2, fun i hi => ?_⟩
  by_contra hc
  exact Nat.find_min hex hi ⟨lt_trans hi (Nat.find_spec hex).1, hc⟩

theorem total_free_pages_claim_of_le (pgftl : page_ftl) (seg off : Nat) :
    ∀ n, n ≤ seg → total_free_pages (claim_page pgftl seg off) n = total_free_pages pgftl n := by
  intro n
  induction n with
  | zero => intro _; rfl
  | succ n ih =>
    intro h
    rw [total_free_pages, total_free_pages, ih (by omega)]
    have : n ≠ seg := by omega
    simp [claim_page, Function.update_noteq this]

theorem total_free_pages_claim (pgftl : page_ftl) (seg off : Nat)
    (hfree : (pgftl.segments seg).nr_free_pages ≠ 0) :
    ∀ n, seg < n →
      total_free_pages (claim_page pgftl seg off) n + 1 = total_free_pages pgftl n := by
  intro n
  induction n with
  | zero => intro h; omega
  | succ n ih =>
    intro h
    rw [total_free_pages, total_free_pages]
    rcases Nat.eq_or_lt_of_le (Nat.le_of_lt_succ h) with e | l
    · subst e
      rw [total_free_pages_claim_of_le pgftl seg off seg (le_refl _)]
      simp [claim_page]
      omega
    · have := ih l
      have hne : n ≠ seg := by omega
      simp [claim_page, Function.update_noteq hne] at this ⊢
      omega

theorem bitmap_synced_claim (dev : device) (pgftl : page_ftl) (seg off : Nat)
    (hs : bitmap_synced dev pgftl) (hseg : seg < dev.nr_segments)
    (hoff : off < dev.pages_per_segment)
    (hbit : get_bit (pgftl.segments seg).use_bits off = false) :
    bitmap_synced dev (claim_page pgftl seg off) := by
  intro s' hs'
  by_cases e : s' = seg
  · subst e
    have h1 := hs s' hs'
    have h2 := nr_unset_bits_set_bit (pgftl.segments s').use_bits off hbit _ hoff
    simp [claim_page]
    omega
  · simp [claim_page, Function.update_noteq e]
    exact hs s' hs'

theorem get_bit_claim_page (pgftl : page_ftl) (seg off seg2 off2 : Nat) :
    get_bit ((claim_page pgftl seg off).segments seg2).use_bits off2 =
      (get_bit (pgftl.segments seg2).use_bits off2 || decide (seg2 = seg ∧ off2 = off)) := by
  by_cases e : seg2 = seg
  · subst e
    simp [claim_page, get_bit_set_bit, eq_comm]
  · simp [claim_page, Function.update_noteq e, e]

theorem probe_sum_no_wrap {a n j : Nat} (h : a + n ≤ 2 ^ 64) (hj : j < n) :
    ((a + j) % 2 ^ 64) % n = (a + j) % n := by
  have e : (a + j) % 2 ^ 64 = a + j := Nat.mod_eq_of_lt (by omega)
  rw [e]

/-- Under the counter/bitmap invariant the loop either claims the first unset bit of a segment
of the device that counts a free page, or leaves through the out-of-space branch with the state
as it was. -/
theorem get_free_page_retry_synced (dev : device) (fmt : device_address_format)
    (pgftl : page_ftl) (hs : bitmap_synced dev pgftl) :
    ∀ (fuel idx : Nat) (probes : List Nat),
      idx ≤ dev.nr_segments → dev.nr_segments - idx < fuel →
      (∃ seg off probes2, seg < dev.nr_segments ∧
        (pgftl.segments seg).nr_free_pages ≠ 0 ∧
        find_first_zero_bit (pgftl.segments seg).use_bits dev.pages_per_segment 0 = some off ∧
        get_free_page_retry dev fmt fuel idx probes pgftl =
          some { paddr := device_address_pack fmt seg off, pgftl := claim_page pgftl seg off,
                 probes := probes2, claimed := some (seg, off) }) ∨
      (∃ probes2, get_free_page_retry dev fmt fuel idx probes pgftl =
          some { paddr := { lpn := fmt.PADDR_EMPTY }, pgftl := pgftl, probes := probes2,
                 claimed := none }) := by
  intro fuel
  induction fuel with
  | zero => intro idx probes _ h; omega
  | succ fuel ih =>
    intro idx probes h1 h2
    rw [get_free_page_retry]
    by_cases hidx : idx = dev.nr_segments
    · rw [if_pos hidx]
      exact Or.inr ⟨_, rfl⟩
    · rw [if_neg hidx]
      have hlt : ((pgftl.alloc_segnum + idx) % 2 ^ 64) % dev.nr_segments < dev.nr_segments :=
        mod_lt_nr_segments h1 hidx
      simp only []
      by_cases hfree :
          (pgftl.segments
            (((pgftl.alloc_segnum + idx) % 2 ^ 64) % dev.nr_segments)).nr_free_pages = 0
      · rw [if_pos hfree]
        exact ih (idx + 1) _ (by omega) (by omega)
      · rw [if_neg hfree]
        have hpos : 0 < nr_unset_bits
            (pgftl.segments
              (((pgftl.alloc_segnum + idx) % 2 ^ 64) % dev.nr_segments)).use_bits
            dev.pages_per_segment := by
          rw [← hs _ hlt]; omega
        obtain ⟨off, hoff⟩ := find_first_zero_bit_of_pos hpos
        rw [hoff]
        exact Or.inl ⟨_, off, _, hlt, hfree, hoff, rfl⟩

theorem mod_add_eq_of_lt {a n j : Nat} (seg : Nat) (hr : a % n + j = seg) (hseg : seg < n) :
    (a + j) % n = seg := by
  rw [← Nat.mod_add_mod, hr, Nat.mod_eq_of_lt hseg]

theorem mod_add_eq_of_wrap {a n j : Nat} (seg : Nat) (hr : a % n + j = seg + n) (hseg : seg < n) :
    (a + j) % n = seg := by
  rw [← Nat.mod_add_mod, hr, Nat.add_mod_right, Nat.mod_eq_of_lt hseg]

theorem mod_add_cases (a n m : Nat) (hn : 0 < n) (hm : m < n) :
    a % n + m = (a + m) % n ∨ a % n + m = (a + m) % n + n := by
  have hr : a % n < n := Nat.mod_lt _ hn
  have hk : (a % n + m) % n = (a + m) % n := Nat.mod_add_mod a n m
  rcases Nat.lt_or_ge (a % n + m) n with h | h
  · left
    rw [← hk, Nat.mod_eq_of_lt h]
  · right
    have e : (a % n + m - n) % n = a % n + m - n := Nat.mod_eq_of_lt (by omega)
    rw [← hk, Nat.mod_eq_sub_mod h, e]
    omega

/-- The first segment that counts a free page in the cyclic order from the cursor is probed
before the 64-bit probe sum wraps. -/
theorem first_free_no_wrap (dev : device) (pgftl : page_ftl) (m : Nat)
    (hcov : probes_reach_free dev pgftl) (hm : m < dev.nr_segments)
    (hne : (pgftl.segments ((pgftl.alloc_segnum + m) % dev.nr_segments)).nr_free_pages ≠ 0) :
    pgftl.alloc_segnum + m < 2 ^ 64 := by
  rcases hcov with h | ⟨ha, hn, hfull⟩
  · omega
  · by_contra hc
    have hge : pgftl.alloc_segnum + m ≥ dev.nr_segments := by omega
    have hmod : (pgftl.alloc_segnum + m) % dev.nr_segments =
        pgftl.alloc_segnum + m - dev.nr_segments := by
      rw [Nat.mod_eq_sub_mod hge, Nat.mod_eq_of_lt (by omega)]
    rw [hmod] at hne
    exact hne (hfull _ (by omega) (by omega))

/-- After a claim in the first segment that counts a free page, the segments a wrapped probe sum
would skip still count no free page. -/
theorem probes_reach_free_claim (dev : device) (pgftl : page_ftl) (m off : Nat)
    (hcov : probes_reach_free dev pgftl) (hm : m < dev.nr_segments)
    (hz : ∀ j, j < m →
      (pgftl.segments ((pgftl.alloc_segnum + j) % dev.nr_segments)).nr_free_pages = 0) :
    probes_reach_free dev
      (claim_page pgftl ((pgftl.alloc_segnum + m) % dev.nr_segments) off) := by
  have hn0 : 0 < dev.nr_segments := by omega
  have hlt : (pgftl.alloc_segnum + m) % dev.nr_segments < dev.nr_segments := Nat.mod_lt _ hn0
  have hn64 : dev.nr_segments ≤ 2 ^ 64 := by
    rcases hcov with h | ⟨_, h, _⟩
    · omega
    · exact h
  have hr : pgftl.alloc_segnum % dev.nr_segments < dev.nr_segments := Nat.mod_lt _ hn0
  have hrle : pgftl.alloc_segnum % dev.nr_segments ≤ pgftl.alloc_segnum := Nat.mod_le _ _
  by_cases hfit : (pgftl.alloc_segnum + m) % dev.nr_segments + dev.nr_segments ≤ 2 ^ 64
  · exact Or.inl hfit
  · refine Or.inr ⟨hlt, hn64, fun seg h1 h2 => ?_⟩
    have h2' : seg < (pgftl.alloc_segnum + m) % dev.nr_segments := h2
    have hne : seg ≠ (pgftl.alloc_segnum + m) % dev.nr_segments := by omega
    simp only [claim_page, Function.update_noteq hne]
    rcases mod_add_cases pgftl.alloc_segnum dev.nr_segments m hn0 hm with hk | hk
    · by_cases hle : pgftl.alloc_segnum % dev.nr_segments ≤ seg
      · have hj := hz (seg - pgftl.alloc_segnum % dev.nr_segments) (by omega)
        rw [mod_add_eq_of_lt seg (by omega) (by omega)] at hj
        exact hj
      · rcases hcov with h | ⟨ha, _, hfull⟩
        · omega
        · rw [Nat.mod_eq_of_lt ha] at hle
          exact hfull seg h1 (by omega)
    · have hj := hz (seg + dev.nr_segments - pgftl.alloc_segnum % dev.nr_segments) (by omega)
      rw [mod_add_eq_of_wrap seg (by omega) (by omega)] at hj
      exact hj

/-- From a state that satisfies the counter/bitmap invariant and counts a free page, in which
no free page sits where a wrapped probe sum would skip it, the call claims a slot whose bit was
unset, and the same holds of the state after the call. -/
theorem page_ftl_get_free_page_claims (dev : device) (fmt : device_address_format)
    (pgftl : page_ftl) (hs : bitmap_synced dev pgftl)
    (hfree : 0 < total_free_pages pgftl dev.nr_segments)
    (hcov : probes_reach_free dev pgftl) :
    ∃ seg off probes,
      page_ftl_get_free_page dev fmt pgftl =
        some { paddr := device_address_pack fmt seg off, pgftl := claim_page pgftl seg off,
               probes := probes, claimed := some (seg, off) } ∧
      seg < dev.nr_segments ∧ off < dev.pages_per_segment ∧
      get_bit (pgftl.segments seg).use_bits off = false ∧
      (pgftl.segments seg).nr_free_pages ≠ 0 ∧
      probes_reach_free dev (claim_page pgftl seg off) := by
  obtain ⟨m, hm, hne, hz⟩ := first_free_segment dev pgftl hfree
  have hlt : (pgftl.alloc_segnum + m) % dev.nr_segments < dev.nr_segments :=
    Nat.mod_lt _ (by omega)
  have hpos : 0 < nr_unset_bits
      (pgftl.segments ((pgftl.alloc_segnum + m) % dev.nr_segments)).use_bits
      dev.pages_per_segment := by
    rw [← hs _ hlt]; omega
  obtain ⟨off, hoff⟩ := find_first_zero_bit_of_pos hpos
  have hnw := first_free_no_wrap dev pgftl m hcov hm hne
  have e : ∀ j, j ≤ m → ((pgftl.alloc_segnum + j) % 2 ^ 64) % dev.nr_segments =
      (pgftl.alloc_segnum + j) % dev.nr_segments := by
    intro j hj
    have e1 : (pgftl.alloc_segnum + j) % 2 ^ 64 = pgftl.alloc_segnum + j :=
      Nat.mod_eq_of_lt (by omega)
    rw [e1]
  obtain ⟨tail, _, hr⟩ := get_free_page_retry_claims dev fmt pgftl m off hm
    (by rw [e m (le_refl _)]; exact hne) (by rw [e m (le_refl _)]; exact hoff)
    (dev.nr_segments + 1) 0 [] (by omega) (by omega)
    (fun j _ hj => by rw [e j (by omega)]; exact hz j hj)
  rw [e m (le_refl _)] at hr
  obtain ⟨h1, h2, _⟩ := find_first_zero_bit_some hoff
  exact ⟨_, off, _, hr, hlt, h1, h2, hne, probes_reach_free_claim dev pgftl m off hcov hm hz⟩

/-! ## Sequences of claims -/

theorem device_address_pack_lpn (fmt : device_address_format) (seg off : Nat)
    (hfit : fmt.block_shift + fmt.block_bits ≤ 32) (hseg : seg < 2 ^ fmt.block_bits)
    (hoff : off < 2 ^ fmt.block_shift) :
    (device_address_pack fmt seg off).lpn = 2 ^ fmt.block_shift * seg + off := by
  have hlt : 2 ^ fmt.block_shift * seg + off < 2 ^ 32 := by
    have h1 : 2 ^ fmt.block_shift * seg + off < 2 ^ fmt.block_shift * (seg + 1) := by
      rw [Nat.mul_add, Nat.mul_one]; omega
    have h2 : 2 ^ fmt.block_shift * (seg + 1) ≤ 2 ^ fmt.block_shift * 2 ^ fmt.block_bits :=
      Nat.mul_le_mul_left _ hseg
    have h3 : 2 ^ fmt.block_shift * 2 ^ fmt.block_bits ≤ 2 ^ 32 := by
      rw [← Nat.pow_add]
      exact Nat.pow_le_pow_right (by decide) hfit
    omega
  simp only [device_address_pack]
  rw [Nat.mod_eq_of_lt hseg, Nat.shiftLeft_eq, Nat.mul_comm seg,
    ← Nat.mul_add_lt_is_or hoff seg, Nat.mod_eq_of_lt hlt]

theorem device_address_unpack (fmt : device_address_format) (seg off : Nat)
    (hfit : fmt.block_shift + fmt.block_bits ≤ 32) (hseg : seg < 2 ^ fmt.block_bits)
    (hoff : off < 2 ^ fmt.block_shift) :
    device_address_block fmt (device_address_pack fmt seg off) = seg ∧
    (device_address_pack fmt seg off).lpn % 2 ^ fmt.block_shift = off := by
  have hpos : 0 < 2 ^ fmt.block_shift := Nat.two_pow_pos fmt.block_shift
  simp only [device_address_block]
  rw [device_address_pack_lpn fmt seg off hfit hseg hoff, Nat.shiftRight_eq_div_pow]
  constructor
  · rw [Nat.mul_add_div hpos, Nat.div_eq_of_lt hoff, Nat.add_zero, Nat.mod_eq_of_lt hseg]
  · rw [Nat.mul_add_mod, Nat.mod_eq_of_lt hoff]

theorem get_free_pages_claims_unset (dev : device) (fmt : device_address_format) :
    ∀ (k : Nat) (pgftl : page_ftl), bitmap_synced dev pgftl →
      k ≤ total_free_pages pgftl dev.nr_segments →
      probes_reach_free dev pgftl →
      ∃ calls, get_free_pages dev fmt k pgftl = some calls ∧ calls.length = k ∧
        (∀ c, c ∈ calls → ∃ seg off, c.2.claimed = some (seg, off) ∧
          c.2.paddr = device_address_pack fmt seg off ∧
          seg < dev.nr_segments ∧ off < dev.pages_per_segment ∧
          get_bit (c.1.segments seg).use_bits off = false ∧
          get_bit (c.2.pgftl.segments seg).use_bits off = true ∧
          get_bit (pgftl.segments seg).use_bits off = false) ∧
        (calls.map (fun c => c.2.claimed)).Nodup := by
  intro k
  induction k with
  | zero =>
    intro pgftl _ _ _
    exact ⟨[], rfl, rfl, by simp, by simp⟩
  | succ k ih =>
    intro pgftl hs hk hw
    obtain ⟨seg, off, probes, hr, hseg, hoff, hbit, hne, hw1⟩ :=
      page_ftl_get_free_page_claims dev fmt pgftl hs (by omega) hw
    have hs1 := bitmap_synced_claim dev pgftl seg off hs hseg hoff hbit
    have ht1 := total_free_pages_claim pgftl seg off hne dev.nr_segments hseg
    obtain ⟨rest, hrest, hlen, hall, hnd⟩ := ih (claim_page pgftl seg off) hs1 (by omega) hw1
    refine ⟨(pgftl, { paddr := device_address_pack fmt seg off,
                      pgftl := claim_page pgftl seg off, probes := probes,
                      claimed := some (seg, off) }) :: rest, ?_, by simp [hlen], ?_, ?_⟩
    · rw [get_free_pages, hr]
      simp only []
      rw [hrest]
    · intro c hc
      rcases List.mem_cons.1 hc with e | hmem
      · subst e
        refine ⟨seg, off, rfl, rfl, hseg, hoff, hbit, ?_, hbit⟩
        simp [get_bit_claim_page]
      · obtain ⟨seg2, off2, h1, h2, h3, h4, h5, h6, h7⟩ := hall c hmem
        refine ⟨seg2, off2, h1, h2, h3, h4, h5, h6, ?_⟩
        rw [get_bit_claim_page] at h7
        simp at h7
        exact h7.1
    · rw [List.map_cons, List.nodup_cons]
      refine ⟨?_, hnd⟩
      intro hin
      obtain ⟨c, hc, hceq⟩ := List.mem_map.1 hin
      obtain ⟨seg2, off2, h1, _, _, _, _, _, h7⟩ := hall c hc
      rw [h1] at hceq
      simp at hceq
      rw [get_bit_claim_page] at h7
      simp [hceq.1, hceq.2] at h7

/-- Calls that claim pairwise distinct legal pairs return pairwise distinct addresses when the
geometry fits the bit-fields of the address. -/
theorem packed_addresses_nodup (dev : device) (fmt : device_address_format)
    (calls : List (page_ftl × free_page_result))
    (hfit : fmt.block_shift + fmt.block_bits ≤ 32)
    (hseg : dev.nr_segments ≤ 2 ^ fmt.block_bits)
    (hpps : dev.pages_per_segment ≤ 2 ^ fmt.block_shift)
    (hall : ∀ c, c ∈ calls → ∃ seg off, c.2.claimed = some (seg, off) ∧
      c.2.paddr = device_address_pack fmt seg off ∧
      seg < dev.nr_segments ∧ off < dev.pages_per_segment)
    (hnd : (calls.map (fun c => c.2.claimed)).Nodup) :
    (calls.map (fun c => c.2.paddr)).Nodup := by
  apply List.Nodup.map_on _ (List.Nodup.of_map _ hnd)
  intro x hx y hy hxy
  apply List.inj_on_of_nodup_map hnd hx hy
  obtain ⟨s1, o1, c1, p1, a1, b1⟩ := hall x hx
  obtain ⟨s2, o2, c2, p2, a2, b2⟩ := hall y hy
  obtain ⟨u1, v1⟩ := device_address_unpack fmt s1 o1 hfit (by omega) (by omega)
  obtain ⟨u2, v2⟩ := device_address_unpack fmt s2 o2 hfit (by omega) (by omega)
  simp only at hxy
  rw [p1, p2] at hxy
  rw [hxy] at u1 v1
  simp only [c1, c2]
  rw [← u1, ← v1, u2, v2]

/-- C2: the probe loop of `page_ftl_get_free_page` returns on every state and every geometry
(also with no segment at all) after at most `nr_segments` probes; when every segment counts no
free page, whatever the cursor, it returns `PADDR_EMPTY` through the out-of-space branch. -/
theorem page_ftl_get_free_page_exhausted (dev : device) (fmt : device_address_format)
    (pgftl : page_ftl) :
    (∃ r, page_ftl_get_free_page dev fmt pgftl = some r ∧
      r.probes.length ≤ dev.nr_segments) ∧
    ((∀ seg, seg < dev.nr_segments → (pgftl.segments seg).nr_free_pages = 0) →
      ∃ r, page_ftl_get_free_page dev fmt pgftl = some r ∧
        r.paddr = { lpn := fmt.PADDR_EMPTY } ∧ r.claimed = none ∧
        r.probes.length ≤ dev.nr_segments) := by
  constructor
  · obtain ⟨r, hr, hlen, _⟩ := get_free_page_retry_returns dev fmt (dev.nr_segments + 1) 0 []
      pgftl (by omega) (by omega)
    exact ⟨r, hr, by simpa using hlen⟩
  · intro hz
    obtain ⟨tail, hlen, hr⟩ := get_free_page_retry_exhausted dev fmt (dev.nr_segments + 1) 0 []
      pgftl hz (by omega) (by omega)
    exact ⟨_, hr, rfl, rfl, by simp [hlen]⟩

/-- The exhaustion theorem applied to `full_page_ftl`, whose cursor is on segment 1. -/
theorem page_ftl_get_free_page_exhausted_witness :
    ∃ r, page_ftl_get_free_page sample_device sample_format full_page_ftl = some r ∧
      r.paddr = { lpn := sample_format.PADDR_EMPTY } ∧ r.claimed = none ∧
      r.probes.length ≤ sample_device.nr_segments :=
  (page_ftl_get_free_page_exhausted sample_device sample_format full_page_ftl).2 (by decide)

/-! ## The translation table -/

theorem map_size_entries (dev : device)
    (hfits : (dev.total_size / dev.page_size + 1) * sizeof_uint32 < 2 ^ 64) :
    page_ftl_get_map_size dev / sizeof_uint32 = dev.total_size / dev.page_size + 1 := by
  simp only [page_ftl_get_map_size]
  rw [Nat.mod_eq_of_lt hfits]
  simp [sizeof_uint32]

theorem map_size_entries_le (dev : device) :
    page_ftl_get_map_size dev / sizeof_uint32 ≤ dev.total_size / dev.page_size + 1 := by
  simp only [page_ftl_get_map_size, sizeof_uint32]
  have h := Nat.mod_le ((dev.total_size / dev.page_size + 1) * 4) (2 ^ 64)
  omega

/-- On `huge_table_device` the table size in bytes, `(2^62 + 1) * 4`, wraps to 4: sector 1 has
its logical page number 1 below the capacity `total_size / page_size + 1 = 2^62 + 1`, yet
`page_ftl_update_map` returns `-EINVAL` and the following `page_ftl_get_map` returns
`PADDR_EMPTY`, not the address 7. -/
theorem page_ftl_update_then_get_counterexample :
    0 < huge_table_device.page_size ∧
    1 / huge_table_device.page_size <
      huge_table_device.total_size / huge_table_device.page_size + 1 ∧
    (7 : Nat) < 2 ^ 32 ∧
    (page_ftl_update_map huge_table_device
      (fresh_page_ftl huge_table_device sample_format) 1 7).1 = -EINVAL ∧
    page_ftl_get_map huge_table_device sample_format
      (page_ftl_update_map huge_table_device
        (fresh_page_ftl huge_table_device sample_format) 1 7).2 1 =
      { lpn := sample_format.PADDR_EMPTY } := by
  decide

/-- C3 (amended): when the table size in bytes `(total_size / page_size + 1) * sizeof(uint32_t)`
fits in a `size_t`, then for a sector whose logical page number lies below the table capacity
`total_size / page_size + 1` and a 32-bit `ppn`, `page_ftl_update_map` returns `0` and a
following `page_ftl_get_map` of the same sector returns the address with scalar `ppn`. -/
theorem page_ftl_update_then_get (dev : device) (fmt : device_address_format) (pgftl : page_ftl)
    (sector ppn : Nat) (hpage : 0 < dev.page_size)
    (hfits : (dev.total_size / dev.page_size + 1) * sizeof_uint32 < 2 ^ 64)
    (hlpn : sector / dev.page_size < dev.total_size / dev.page_size + 1)
    (hppn : ppn < 2 ^ 32) :
    (page_ftl_update_map dev pgftl sector ppn).1 = 0 ∧
    (page_ftl_get_map dev fmt (page_ftl_update_map dev pgftl sector ppn).2 sector).lpn = ppn := by
  have hnot : ¬ page_ftl_get_lpn dev sector ≥ page_ftl_get_map_size dev / sizeof_uint32 := by
    have hdiv : sector / dev.page_size * dev.page_size ≤ sector := Nat.div_mul_le_self _ _
    rw [map_size_entries dev hfits]; simp only [page_ftl_get_lpn]; omega
  have hpos : dev.page_size ≠ 0 := Nat.pos_iff_ne_zero.1 hpage
  simp only [page_ftl_update_map, page_ftl_get_map, if_neg hnot]
  simp
  omega

/-- The update-then-read theorem applied to sector 13 of `sample_device` and the address 4097. -/
theorem page_ftl_update_then_get_witness :
    0 < sample_device.page_size ∧
    (sample_device.total_size / sample_device.page_size + 1) * sizeof_uint32 < 2 ^ 64 ∧
    13 / sample_device.page_size < sample_device.total_size / sample_device.page_size + 1 ∧
    (4097 : Nat) < 2 ^ 32 ∧
    (page_ftl_update_map sample_device (fresh_page_ftl sample_device sample_format) 13 4097).1
      = 0 ∧
    (page_ftl_get_map sample_device sample_format
      (page_ftl_update_map sample_device (fresh_page_ftl sample_device sample_format)
        13 4097).2 13).lpn = 4097 :=
  ⟨by decide, by decide, by decide, by decide,
    page_ftl_update_then_get sample_device sample_format
      (fresh_page_ftl sample_device sample_format) 13 4097 (by decide) (by decide) (by decide)
      (by decide)⟩

/-- On `huge_table_device`, whose table size in bytes wraps to 4, `page_ftl_update_map` returns
non-zero for sector 1 although its logical page number 1 is below the capacity
`total_size / page_size + 1 = 2^62 + 1`. -/
theorem page_ftl_map_out_of_range_counterexample :
    (page_ftl_update_map huge_table_device
      (fresh_page_ftl huge_table_device sample_format) 1 7).1 ≠ 0 ∧
    ¬ (huge_table_device.total_size / huge_table_device.page_size + 1 ≤
      1 / huge_table_device.page_size) := by
  decide

/-- C4 (amended): for a sector whose logical page number is at least the table capacity
`total_size / page_size + 1`, `page_ftl_update_map` returns `-EINVAL` and leaves the state, hence
every table entry, as it was, and `page_ftl_get_map` returns `PADDR_EMPTY`; conversely, when the
table size in bytes `(total_size / page_size + 1) * sizeof(uint32_t)` fits in a `size_t`,
`page_ftl_update_map` returns non-zero only for such a sector. -/
theorem page_ftl_map_out_of_range (dev : device) (fmt : device_address_format) (pgftl : page_ftl)
    (sector ppn : Nat) :
    (dev.total_size / dev.page_size + 1 ≤ sector / dev.page_size →
      (page_ftl_update_map dev pgftl sector ppn).1 = -EINVAL ∧
      (page_ftl_update_map dev pgftl sector ppn).2.trans_map = pgftl.trans_map ∧
      (page_ftl_update_map dev pgftl sector ppn).2.alloc_segnum = pgftl.alloc_segnum ∧
      (page_ftl_update_map dev pgftl sector ppn).2.segments = pgftl.segments ∧
      page_ftl_get_map dev fmt pgftl sector = { lpn := fmt.PADDR_EMPTY }) ∧
    ((dev.total_size / dev.page_size + 1) * sizeof_uint32 < 2 ^ 64 →
      (page_ftl_update_map dev pgftl sector ppn).1 ≠ 0 →
      dev.total_size / dev.page_size + 1 ≤ sector / dev.page_size) := by
  constructor
  · intro h
    have hge : page_ftl_get_lpn dev sector ≥ page_ftl_get_map_size dev / sizeof_uint32 := by
      have hle := map_size_entries_le dev
      simp only [page_ftl_get_lpn]
      omega
    simp only [page_ftl_update_map, page_ftl_get_map, if_pos hge]
    simp
  · intro hfits h
    by_contra hc
    have hnot : ¬ page_ftl_get_lpn dev sector ≥ page_ftl_get_map_size dev / sizeof_uint32 := by
      rw [map_size_entries dev hfits]; exact hc
    simp [page_ftl_update_map, if_neg hnot] at h

/-- The out-of-range theorem applied to sector 68 of `sample_device`, the first sector past the
table, and its converse applied to the same sector. -/
theorem page_ftl_map_out_of_range_witness :
    ((page_ftl_update_map sample_device (fresh_page_ftl sample_device sample_format) 68 7).1
      = -EINVAL ∧
    (page_ftl_update_map sample_device (fresh_page_ftl sample_device sample_format)
      68 7).2.trans_map = (fresh_page_ftl sample_device sample_format).trans_map ∧
    (page_ftl_update_map sample_device (fresh_page_ftl sample_device sample_format)
      68 7).2.alloc_segnum = (fresh_page_ftl sample_device sample_format).alloc_segnum ∧
    (page_ftl_update_map sample_device (fresh_page_ftl sample_device sample_format)
      68 7).2.segments = (fresh_page_ftl sample_device sample_format).segments ∧
    page_ftl_get_map sample_device sample_format (fresh_page_ftl sample_device sample_format) 68
      = { lpn := sample_format.PADDR_EMPTY }) ∧
    sample_device.total_size / sample_device.page_size + 1 ≤ 68 / sample_device.page_size :=
  ⟨(page_ftl_map_out_of_range sample_device sample_format
      (fresh_page_ftl sample_device sample_format) 68 7).1 (by decide),
    (page_ftl_map_out_of_range sample_device sample_format
      (fresh_page_ftl sample_device sample_format) 68 7).2 (by decide) (by decide)⟩

/-! ## The cache -/

theorem lru_init_eq_fresh (capacity : Nat) (deallocate : Option (Nat → Nat → Int))
    (h : capacity ≠ 0) : lru_init true capacity deallocate = some (lru_fresh capacity deallocate) := by
  simp [lru_init, lru_fresh, h]

theorem release_eq_ok (f : Nat → Nat → Int) (hf : ∀ k v, f k v = 0) : f = release_ok := by
  funext k v; exact hf k v

/-- After the four calls on a cache of capacity 2 the callback has been invoked once with `(2, 20)` and the resident keys are 1 and 3, yet key 1 is not more recent than key 3. -/
theorem lru_capacity_two_counterexample :
    lru_init true 2 (some release_ok) = some (lru_fresh 2 (some release_ok)) ∧
    ¬ ((lru_capacity_two_scenario (lru_fresh 2 (some release_ok))).2.2 = [(2, 20)] ∧
       (∀ k, k ∈ lru_keys (lru_capacity_two_scenario (lru_fresh 2 (some release_ok))).2.1 ↔
          (k = 1 ∨ k = 3)) ∧
       lru_more_recent (lru_capacity_two_scenario (lru_fresh 2 (some release_ok))).2.1 1 3
          = true) := by
  refine ⟨lru_init_eq_fresh 2 _ (by decide), ?_⟩
  intro h
  exact absurd h.2.2 (by decide)

/-- C5 (amended): on a cache of capacity 2 with an eviction batch of one and a release callback
that always succeeds, `lru_put(1,10)`, `lru_put(2,20)`, `lru_get(1)`, `lru_put(3,30)` evicts
exactly the entry with key 2 (one callback invocation, with `(2, 20)`), the `lru_get` returns 10,
the resident keys are 3 and 1 with 2 entries counted, and key 3, inserted last, is more recent
than key 1. -/
theorem lru_capacity_two_order (f : Nat → Nat → Int) (hf : ∀ k v, f k v = 0) :
    lru_init true 2 (some f) = some (lru_fresh 2 (some f)) ∧
    (lru_capacity_two_scenario (lru_fresh 2 (some f))).2.2 = [(2, 20)] ∧
    (lru_capacity_two_scenario (lru_fresh 2 (some f))).1 = 10 ∧
    lru_keys (lru_capacity_two_scenario (lru_fresh 2 (some f))).2.1 = [3, 1] ∧
    (∀ k, k ∈ lru_keys (lru_capacity_two_scenario (lru_fresh 2 (some f))).2.1 ↔
      (k = 1 ∨ k = 3)) ∧
    (lru_capacity_two_scenario (lru_fresh 2 (some f))).2.1.size = 2 ∧
    lru_more_recent (lru_capacity_two_scenario (lru_fresh 2 (some f))).2.1 3 1 = true ∧
    lru_more_recent (lru_capacity_two_scenario (lru_fresh 2 (some f))).2.1 1 3 = false := by
  rw [release_eq_ok f hf]
  have hk : lru_keys (lru_capacity_two_scenario (lru_fresh 2 (some release_ok))).2.1 = [3, 1] := by
    decide
  refine ⟨lru_init_eq_fresh 2 _ (by decide), by decide, by decide, hk, ?_, by decide,
    by decide, by decide⟩
  intro k
  rw [hk]
  simp
  tauto

/-- The capacity-two theorem applied to the callback `release_ok`. -/
theorem lru_capacity_two_order_witness :
    (∀ k v, release_ok k v = 0) ∧
    lru_keys (lru_capacity_two_scenario (lru_fresh 2 (some release_ok))).2.1 = [3, 1] ∧
    lru_more_recent (lru_capacity_two_scenario (lru_fresh 2 (some release_ok))).2.1 3 1 = true :=
  ⟨fun _ _ => rfl,
    (lru_capacity_two_order release_ok (fun _ _ => rfl)).2.2.2.1,
    (lru_capacity_two_order release_ok (fun _ _ => rfl)).2.2.2.2.2.2.1⟩

/-- C6 (the code at the failing input): `lru_do_evict(cache, 1)` on the empty cache made by
`lru_init(2, release_ok)` invokes the callback once, on the sentinel's key `2^64 - 1` and null
value, and lets `size` wrap from 0 to `2^64 - 1`; the list stays empty and `0` is returned. -/
theorem lru_do_evict_empty_invokes_callback :
    (lru_fresh 2 (some release_ok)).nodes = [] ∧
    (lru_do_evict (lru_fresh 2 (some release_ok)) 1).2.2 = [(2 ^ 64 - 1, 0)] ∧
    (lru_do_evict (lru_fresh 2 (some release_ok)) 1).2.1.size = 2 ^ 64 - 1 ∧
    (lru_do_evict (lru_fresh 2 (some release_ok)) 1).2.1.nodes = [] ∧
    (lru_do_evict (lru_fresh 2 (some release_ok)) 1).1 = 0 := by
  decide

theorem lru_free_loop_ok (f : Nat → Nat → Int) (hf : ∀ k v, f k v = 0) :
    ∀ nodes : List lru_node,
      lru_free_loop (some f) nodes = (0, nodes.map (fun n => (n.key, n.value))) := by
  intro nodes
  induction nodes with
  | nil => rfl
  | cons node rest ih =>
    rw [lru_free_loop]
    simp only [hf, ih]
    simp

/-- After `lru_put(1, 10)` and `lru_put(2, 20)` the teardown invokes the callback on `(2, 20)` first and on `(1, 10)` second, which is not the order from least to most recently used. -/
theorem lru_free_order_counterexample :
    lru_entries (lru_run 1 (lru_fresh 2 (some release_ok))
      [lru_call.put 1 10 true, lru_call.put 2 20 true]) = [(2, 20), (1, 10)] ∧
    (lru_free (some (lru_run 1 (lru_fresh 2 (some release_ok))
      [lru_call.put 1 10 true, lru_call.put 2 20 true]))).2.2 = [(2, 20), (1, 10)] ∧
    ¬ ((lru_free (some (lru_run 1 (lru_fresh 2 (some release_ok))
      [lru_call.put 1 10 true, lru_call.put 2 20 true]))).2.2 =
        (lru_entries (lru_run 1 (lru_fresh 2 (some release_ok))
          [lru_call.put 1 10 true, lru_call.put 2 20 true])).reverse) := by
  decide

/-- C7 (amended): for a cache whose release callback always succeeds, `lru_free` returns `0`,
frees the cache and invokes the callback exactly once for each resident entry, with that entry's
`(key, value)`, in the order from the most recently used entry to the least recently used one. -/
theorem lru_free_releases_all (cache : lru_cache) (f : Nat → Nat → Int)
    (hd : cache.deallocate = some f) (hf : ∀ k v, f k v = 0) :
    (lru_free (some cache)).1 = 0 ∧ (lru_free (some cache)).2.1 = none ∧
    (lru_free (some cache)).2.2 = lru_entries cache := by
  simp [lru_free, hd, lru_free_loop_ok f hf, lru_entries]

/-- The teardown theorem applied to the cache holding the keys 2 and 1. -/
theorem lru_free_releases_all_witness :
    (lru_run 1 (lru_fresh 2 (some release_ok))
      [lru_call.put 1 10 true, lru_call.put 2 20 true]).deallocate = some release_ok ∧
    (∀ k v, release_ok k v = 0) ∧
    (lru_free (some (lru_run 1 (lru_fresh 2 (some release_ok))
      [lru_call.put 1 10 true, lru_call.put 2 20 true]))).2.2 =
      lru_entries (lru_run 1 (lru_fresh 2 (some release_ok))
        [lru_call.put 1 10 true, lru_call.put 2 20 true]) :=
  ⟨rfl, fun _ _ => rfl,
    (lru_free_releases_all (lru_run 1 (lru_fresh 2 (some release_ok))
      [lru_call.put 1 10 true, lru_call.put 2 20 true]) release_ok rfl (fun _ _ => rfl)).2.2⟩

theorem lru_scan_none {key : Nat} :
    ∀ {nodes : List lru_node}, key ∉ nodes.map (fun n => n.key) → lru_scan key nodes = none := by
  intro nodes
  induction nodes with
  | nil => intro _; rfl
  | cons node rest ih =>
    intro h
    simp at h
    rw [lru_scan, if_neg (fun e => h.1 e.symm)]
    have : lru_scan key rest = none := ih (by simpa using h.2)
    rw [this]; rfl

theorem lru_get_miss (cache : lru_cache) (key : Nat) (h : key ∉ lru_keys cache) :
    lru_get cache key = (0, cache) := by
  simp [lru_get, lru_find_node, lru_scan_none h]

theorem lru_get_after_put (nr_evict : Nat) (cache : lru_cache) (k v : Nat) :
    (lru_put nr_evict true cache k v).1 = 0 ∧
    (lru_get (lru_put nr_evict true cache k v).2.1 k).1 = v := by
  simp [lru_put, lru_alloc_node, lru_node_insert, lru_get, lru_find_node, lru_scan, lru_deref]

/-- A stored value `0`: `lru_get` after a successful `lru_put(5, 0)` returns the same as `lru_get(5)` on a cache where key 5 is not resident. -/
theorem lru_get_zero_counterexample :
    (lru_put 1 true (lru_fresh 2 (some release_ok)) 5 0).1 = 0 ∧
    5 ∈ lru_keys (lru_put 1 true (lru_fresh 2 (some release_ok)) 5 0).2.1 ∧
    5 ∉ lru_keys (lru_fresh 2 (some release_ok)) ∧
    (lru_get (lru_put 1 true (lru_fresh 2 (some release_ok)) 5 0).2.1 5).1 =
      (lru_get (lru_fresh 2 (some release_ok)) 5).1 := by
  decide

/-- C9 (amended): `lru_get` on a key that is not resident returns `0` (the null value) and leaves
the cache as it was, and `lru_get` right after a successful `lru_put(k, v)` returns `v`; so the
outcome of a miss differs from the outcome of that hit for every stored value `v ≠ 0`. -/
theorem lru_get_hit_differs_from_miss (nr_evict : Nat) (cache cache2 : lru_cache)
    (k v k2 : Nat) (hv : v ≠ 0) (hmiss : k2 ∉ lru_keys cache2) :
    (lru_put nr_evict true cache k v).1 = 0 ∧
    (lru_get (lru_put nr_evict true cache k v).2.1 k).1 = v ∧
    lru_get cache2 k2 = (0, cache2) ∧
    (lru_get (lru_put nr_evict true cache k v).2.1 k).1 ≠ (lru_get cache2 k2).1 := by
  obtain ⟨h1, h2⟩ := lru_get_after_put nr_evict cache k v
  refine ⟨h1, h2, lru_get_miss cache2 k2 hmiss, ?_⟩
  rw [h2, lru_get_miss cache2 k2 hmiss]
  exact hv

/-- The hit-versus-miss theorem applied to the stored value 7 under key 5. -/
theorem lru_get_hit_differs_from_miss_witness :
    (7 : Nat) ≠ 0 ∧ 5 ∉ lru_keys (lru_fresh 2 (some release_ok)) ∧
    (lru_get (lru_put 1 true (lru_fresh 2 (some release_ok)) 5 7).2.1 5).1 ≠
      (lru_get (lru_fresh 2 (some release_ok)) 5).1 :=
  ⟨by decide, by decide,
    (lru_get_hit_differs_from_miss 1 (lru_fresh 2 (some release_ok))
      (lru_fresh 2 (some release_ok)) 5 7 5 (by decide) (by decide)).2.2.2⟩

/-- C10 (the code at the failing input): on the cache made by `lru_init(1, release_fails)`, with
an eviction batch of one, after `lru_put(1, 10)` and `lru_put(2, 20)` the cache counts
`size = 2` entries with `capacity = 1`, while a single node is linked. -/
theorem lru_size_exceeds_capacity :
    lru_init true 1 (some release_fails) = some (lru_fresh 1 (some release_fails)) ∧
    (lru_run 1 (lru_fresh 1 (some release_fails))
      [lru_call.put 1 10 true, lru_call.put 2 20 true]).size = 2 ∧
    (lru_run 1 (lru_fresh 1 (some release_fails))
      [lru_call.put 1 10 true, lru_call.put 2 20 true]).capacity = 1 ∧
    (lru_run 1 (lru_fresh 1 (some release_fails))
      [lru_call.put 1 10 true, lru_call.put 2 20 true]).nodes = [{ key := 2, value := 20 }] ∧
    ¬ ((lru_run 1 (lru_fresh 1 (some release_fails))
      [lru_call.put 1 10 true, lru_call.put 2 20 true]).size ≤
       (lru_run 1 (lru_fresh 1 (some release_fails))
      [lru_call.put 1 10 true, lru_call.put 2 20 true]).capacity) :=
  ⟨lru_init_eq_fresh 1 _ (by decide), by decide, by decide, by decide, by decide⟩

/-! ## Allocation order on a fresh device -/

theorem cyclic_probe_injective {n c p q : Nat} (hp : p < n) (hq : q < n)
    (h : (c + p) % n = (c + q) % n) : p = q := by
  have h1 : p % n = q % n := Nat.ModEq.add_left_cancel' c h
  rwa [Nat.mod_eq_of_lt hp, Nat.mod_eq_of_lt hq] at h1

theorem mul_succ_le_of_lt {p q k : Nat} (h : p < q) : p * k + k ≤ q * k := by
  have := Nat.mul_le_mul_right k (Nat.succ_le_of_lt h)
  rw [Nat.succ_mul] at this
  exact this

theorem find_first_zero_bit_prefix {bits size r : Nat} (hr : r < size)
    (h : ∀ i, i < size → get_bit bits i = decide (i < r)) :
    find_first_zero_bit bits size 0 = some r := by
  unfold find_first_zero_bit
  rw [List.find?_range'_eq_some]
  refine ⟨by simp [h r hr], by simp [List.mem_range']; omega, fun j _ hj => ?_⟩
  simp [h j (by omega), hj]

/-- The call claims the slot `off` of segment `seg` when `seg` is the segment probed with the
loop counter `m`, the segments probed before it count no free page, and `off` is its first unset
bit. -/
theorem page_ftl_get_free_page_at (dev : device) (fmt : device_address_format)
    (pgftl : page_ftl) (m seg off : Nat) (hm : m < dev.nr_segments)
    (hseg : ((pgftl.alloc_segnum + m) % 2 ^ 64) % dev.nr_segments = seg)
    (hfree : (pgftl.segments seg).nr_free_pages ≠ 0)
    (hoff : find_first_zero_bit (pgftl.segments seg).use_bits dev.pages_per_segment 0 = some off)
    (hz : ∀ j, j < m →
      (pgftl.segments
        (((pgftl.alloc_segnum + j) % 2 ^ 64) % dev.nr_segments)).nr_free_pages = 0) :
    ∃ probes, page_ftl_get_free_page dev fmt pgftl =
      some { paddr := device_address_pack fmt seg off, pgftl := claim_page pgftl seg off,
             probes := probes, claimed := some (seg, off) } := by
  subst hseg
  obtain ⟨tail, _, hr⟩ := get_free_page_retry_claims dev fmt pgftl m off hm hfree hoff
    (dev.nr_segments + 1) 0 [] (by omega) (by omega) (fun j _ hj => hz j hj)
  exact ⟨_, hr⟩

theorem filled_up_to_fresh (dev : device) (pgftl : page_ftl) (h : is_fresh dev pgftl)
    (hc : pgftl.alloc_segnum < 2 ^ 64) :
    filled_up_to dev pgftl.alloc_segnum 0 pgftl := by
  refine ⟨fun p hp => ?_, by simp, hc, fun h0 => absurd h0 (by omega)⟩
  have hlt : (pgftl.alloc_segnum + p) % dev.nr_segments < dev.nr_segments :=
    Nat.mod_lt _ (by omega)
  obtain ⟨h1, h2⟩ := h _ hlt
  refine ⟨by simp [h1], fun i hi => ?_⟩
  simp [h2 i hi]

theorem filled_up_to_step (dev : device) (fmt : device_address_format) (c j : Nat)
    (pgftl : page_ftl) (h : filled_up_to dev c j pgftl)
    (hj : j < dev.nr_segments * dev.pages_per_segment)
    (hmax : dev.nr_segments < 2 ^ 64) :
    (∃ probes, page_ftl_get_free_page dev fmt pgftl =
      some { paddr := device_address_pack fmt
               ((c + j / dev.pages_per_segment) % dev.nr_segments) (j % dev.pages_per_segment),
             pgftl := claim_page pgftl
               ((c + j / dev.pages_per_segment) % dev.nr_segments) (j % dev.pages_per_segment),
             probes := probes,
             claimed := some ((c + j / dev.pages_per_segment) % dev.nr_segments,
               j % dev.pages_per_segment) }) ∧
    filled_up_to dev c (j + 1) (claim_page pgftl
      ((c + j / dev.pages_per_segment) % dev.nr_segments) (j % dev.pages_per_segment)) := by
  obtain ⟨hseg, hcur, hlt64, hidx⟩ := h
  have hpps : 0 < dev.pages_per_segment := by
    rcases Nat.eq_zero_or_pos dev.pages_per_segment with e | e
    · rw [e] at hj; simp at hj
    · exact e
  have hn : 0 < dev.nr_segments := by
    rcases Nat.eq_zero_or_pos dev.nr_segments with e | e
    · rw [e] at hj; simp at hj
    · exact e
  have hq : j / dev.pages_per_segment < dev.nr_segments :=
    Nat.div_lt_of_lt_mul (by rw [Nat.mul_comm]; exact hj)
  have hr : j % dev.pages_per_segment < dev.pages_per_segment := Nat.mod_lt _ hpps
  have hjq : j / dev.pages_per_segment * dev.pages_per_segment + j % dev.pages_per_segment = j := by
    rw [Nat.mul_comm]; exact Nat.div_add_mod j dev.pages_per_segment
  generalize hqdef : j / dev.pages_per_segment = q at *
  generalize hrdef : j % dev.pages_per_segment = r at *
  obtain ⟨hfq, hbq⟩ := hseg q hq
  have hsub : j - q * dev.pages_per_segment = r := by omega
  rw [hsub] at hfq hbq
  have hfind := find_first_zero_bit_prefix hr hbq
  constructor
  · by_cases hcase : (j - 1) / dev.pages_per_segment = q
    · rw [hcase] at hcur
      exact page_ftl_get_free_page_at dev fmt pgftl 0 _ r hn
        (by rw [Nat.add_zero, Nat.mod_eq_of_lt hlt64]; exact hcur)
        (by omega) hfind (fun i hi => by omega)
    · have hr0 : r = 0 := by
        by_contra hne
        apply hcase
        apply Nat.div_eq_of_lt_le
        · omega
        · rw [Nat.succ_mul]; omega
      have hq1 : 1 ≤ q := by
        by_contra hne
        have : q = 0 := by omega
        subst this
        apply hcase
        have : j = 0 := by omega
        subst this
        simp
      have hprev : (j - 1) / dev.pages_per_segment = q - 1 := by
        apply Nat.div_eq_of_lt_le
        · have := mul_succ_le_of_lt (k := dev.pages_per_segment) (show q - 1 < q by omega)
          omega
        · have h2 := mul_succ_le_of_lt (k := dev.pages_per_segment) (show q - 1 < q by omega)
          have : q - 1 + 1 = q := by omega
          rw [this]; omega
      rw [hprev] at hcur
      have hone : (pgftl.alloc_segnum + 1) % dev.nr_segments = (c + q) % dev.nr_segments := by
        have h1 : (pgftl.alloc_segnum + 1) % dev.nr_segments
            = (c + (q - 1) + 1) % dev.nr_segments := Nat.ModEq.add_right 1 hcur
        rw [h1]
        congr 1
        omega
      have hjpos : 0 < j := by
        have := mul_succ_le_of_lt (k := dev.pages_per_segment) (show q - 1 < q by omega)
        omega
      have ha := hidx hjpos
      have hone2 : ((pgftl.alloc_segnum + 1) % 2 ^ 64) % dev.nr_segments =
          (c + q) % dev.nr_segments := by
        rw [Nat.mod_eq_of_lt (show pgftl.alloc_segnum + 1 < 2 ^ 64 by omega)]
        exact hone
      refine page_ftl_get_free_page_at dev fmt pgftl 1 _ r (by omega) hone2 (by omega) hfind
        (fun i hi => ?_)
      have hi0 : i = 0 := by omega
      subst hi0
      rw [Nat.add_zero, Nat.mod_eq_of_lt hlt64, hcur]
      obtain ⟨hf, _⟩ := hseg (q - 1) (by omega)
      rw [hf]
      have := mul_succ_le_of_lt (k := dev.pages_per_segment) (show q - 1 < q by omega)
      omega
  · refine ⟨fun p hp => ?_, ?_⟩
    · by_cases hpq : p = q
      · subst hpq
        simp only [claim_page, Function.update_same]
        refine ⟨by omega, fun i hi => ?_⟩
        rw [get_bit_set_bit, hbq i hi]
        have hsub2 : j + 1 - p * dev.pages_per_segment = r + 1 := by omega
        rw [hsub2, Bool.eq_iff_iff]
        simp
        omega
      · have hne : (c + p) % dev.nr_segments ≠ (c + q) % dev.nr_segments :=
          fun e => hpq (cyclic_probe_injective hp hq e)
        simp only [claim_page, Function.update_noteq hne]
        obtain ⟨hf, hb⟩ := hseg p hp
        rcases Nat.lt_or_gt_of_ne hpq with hlt | hgt
        · have := mul_succ_le_of_lt (k := dev.pages_per_segment) hlt
          refine ⟨by omega, fun i hi => ?_⟩
          rw [hb i hi, Bool.eq_iff_iff]
          simp
          omega
        · have := mul_succ_le_of_lt (k := dev.pages_per_segment) hgt
          refine ⟨by omega, fun i hi => ?_⟩
          rw [hb i hi, Bool.eq_iff_iff]
          simp
          omega
    · have hlt : (c + q) % dev.nr_segments < dev.nr_segments := Nat.mod_lt _ hn
      refine ⟨by simp [claim_page, hqdef], ?_, fun _ => ?_⟩
      · simp only [claim_page]; omega
      · simp only [claim_page]; exact hlt

theorem get_free_pages_succ {dev : device} {fmt : device_address_format} {k : Nat}
    {pgftl : page_ftl} {r : free_page_result} {rest : List (page_ftl × free_page_result)}
    (hr : page_ftl_get_free_page dev fmt pgftl = some r)
    (hrest : get_free_pages dev fmt k r.pgftl = some rest) :
    get_free_pages dev fmt (k + 1) pgftl = some ((pgftl, r) :: rest) := by
  rw [get_free_pages, hr]
  simp only []
  rw [hrest]

theorem get_free_pages_filled (dev : device) (fmt : device_address_format) (c : Nat)
    (hmax : dev.nr_segments < 2 ^ 64) :
    ∀ (k j : Nat) (pgftl : page_ftl), filled_up_to dev c j pgftl →
      j + k ≤ dev.nr_segments * dev.pages_per_segment →
      ∃ calls, get_free_pages dev fmt k pgftl = some calls ∧
        calls.map (fun x => x.2.claimed) =
          (List.range' j k).map (fun i =>
            some ((c + i / dev.pages_per_segment) % dev.nr_segments,
              i % dev.pages_per_segment)) ∧
        calls.map (fun x => x.2.paddr) =
          (List.range' j k).map (fun i =>
            device_address_pack fmt ((c + i / dev.pages_per_segment) % dev.nr_segments)
              (i % dev.pages_per_segment)) := by
  intro k
  induction k with
  | zero => intro j pgftl _ _; exact ⟨[], rfl, rfl, rfl⟩
  | succ k ih =>
    intro j pgftl h hk
    obtain ⟨⟨probes, hr⟩, hnext⟩ := filled_up_to_step dev fmt c j pgftl h (by omega) hmax
    obtain ⟨rest, hrest, hcl, hpa⟩ := ih (j + 1) _ hnext (by omega)
    refine ⟨_, get_free_pages_succ hr hrest, ?_, ?_⟩
    · rw [List.map_cons, hcl, List.range'_succ, List.map_cons]
    · rw [List.map_cons, hpa, List.range'_succ, List.map_cons]

theorem nr_set_bits_add_unset (bits : Nat) :
    ∀ n, nr_set_bits bits n + nr_unset_bits bits n = n := by
  intro n
  induction n with
  | zero => simp [nr_set_bits, nr_unset_bits]
  | succ n ih =>
    have h1 : nr_set_bits bits (n + 1) =
        nr_set_bits bits n + (if get_bit bits n then 1 else 0) := by
      unfold nr_set_bits
      rw [List.range_succ, List.filter_append, List.length_append]
      cases h : get_bit bits n <;> simp [h]
    rw [h1, nr_unset_bits_succ]
    cases h : get_bit bits n <;> simp <;> omega

theorem counters_match_iff_synced (dev : device) (pgftl : page_ftl) :
    counters_match_bitmap dev pgftl ↔ bitmap_synced dev pgftl := by
  constructor
  · intro h seg hseg
    have h1 := h seg hseg
    have h2 := nr_set_bits_add_unset (pgftl.segments seg).use_bits dev.pages_per_segment
    omega
  · intro h seg hseg
    have h1 := h seg hseg
    have h2 := nr_set_bits_add_unset (pgftl.segments seg).use_bits dev.pages_per_segment
    omega

theorem total_free_pages_eq_zero {pgftl : page_ftl} :
    ∀ {n : Nat}, total_free_pages pgftl n = 0 →
      ∀ seg, seg < n → (pgftl.segments seg).nr_free_pages = 0 := by
  intro n
  induction n with
  | zero => intro _ seg h; omega
  | succ n ih =>
    intro h seg hseg
    rw [total_free_pages] at h
    rcases Nat.eq_or_lt_of_le (Nat.le_of_lt_succ hseg) with e | l
    · subst e; omega
    · exact ih (by omega) seg l

/-- Under the counter/bitmap invariant, with a cursor whose probe sums do not wrap, a call
either claims the first unset bit of the first segment, in the cyclic order from the cursor, that
counts a free page, or finds no such segment and leaves the state as it was. -/
theorem page_ftl_get_free_page_cases (dev : device) (fmt : device_address_format)
    (pgftl : page_ftl) (hs : bitmap_synced dev pgftl)
    (hw : pgftl.alloc_segnum + dev.nr_segments ≤ 2 ^ 64) :
    (∃ m off probes,
      m < dev.nr_segments ∧
      (pgftl.segments ((pgftl.alloc_segnum + m) % dev.nr_segments)).nr_free_pages ≠ 0 ∧
      (∀ j, j < m →
        (pgftl.segments ((pgftl.alloc_segnum + j) % dev.nr_segments)).nr_free_pages = 0) ∧
      find_first_zero_bit
        (pgftl.segments ((pgftl.alloc_segnum + m) % dev.nr_segments)).use_bits
        dev.pages_per_segment 0 = some off ∧
      page_ftl_get_free_page dev fmt pgftl =
        some { paddr := device_address_pack fmt
                 ((pgftl.alloc_segnum + m) % dev.nr_segments) off,
               pgftl := claim_page pgftl ((pgftl.alloc_segnum + m) % dev.nr_segments) off,
               probes := probes,
               claimed := some ((pgftl.alloc_segnum + m) % dev.nr_segments, off) }) ∨
    (∃ probes,
      page_ftl_get_free_page dev fmt pgftl =
        some { paddr := { lpn := fmt.PADDR_EMPTY }, pgftl := pgftl, probes := probes,
               claimed := none }) := by
  rcases Nat.eq_zero_or_pos (total_free_pages pgftl dev.nr_segments) with hz | hpos
  · right
    obtain ⟨tail, _, hr⟩ := get_free_page_retry_exhausted dev fmt (dev.nr_segments + 1) 0 []
      pgftl (total_free_pages_eq_zero hz) (by omega) (by omega)
    exact ⟨_, hr⟩
  · left
    obtain ⟨m, hm, hne, hz⟩ := first_free_segment dev pgftl hpos
    have hlt : (pgftl.alloc_segnum + m) % dev.nr_segments < dev.nr_segments :=
      Nat.mod_lt _ (by omega)
    have hcount : 0 < nr_unset_bits
        (pgftl.segments ((pgftl.alloc_segnum + m) % dev.nr_segments)).use_bits
        dev.pages_per_segment := by
      rw [← hs _ hlt]; omega
    obtain ⟨off, hoff⟩ := find_first_zero_bit_of_pos hcount
    have e := probe_sum_no_wrap hw hm
    obtain ⟨tail, _, hr⟩ := get_free_page_retry_claims dev fmt pgftl m off hm
      (by rw [e]; exact hne) (by rw [e]; exact hoff)
      (dev.nr_segments + 1) 0 [] (by omega) (by omega)
      (fun j _ hj => by rw [probe_sum_no_wrap hw (by omega)]; exact hz j hj)
    rw [e] at hr
    exact ⟨m, off, _, hm, hne, hz, hoff, hr⟩

/-- C18 (the code at the failing input): on `mismatched_page_ftl` (three segments, cursor 0) the
call probes the segments 0, 1, 0 and returns `PADDR_EMPTY` without a claim; segment 2, which
counts a free page and has its bit 0 unset, is never probed. -/
theorem get_free_page_skips_segment :
    (page_ftl_get_free_page three_segment_device sample_format mismatched_page_ftl).map
      (fun r => (r.probes, r.claimed, r.paddr)) =
      some ([0, 1, 0], none, { lpn := sample_format.PADDR_EMPTY }) ∧
    (mismatched_page_ftl.segments 2).nr_free_pages = 1 ∧
    get_bit (mismatched_page_ftl.segments 2).use_bits 0 = false ∧
    (2 : Nat) < three_segment_device.nr_segments := by
  decide

/-- C19 (the code at the failing input): on `stale_counter_page_ftl` (two segments, cursor 0)
the call returns `PADDR_EMPTY` without a claim and leaves `alloc_segnum = 1`, where it was `0`
on entry. -/
theorem get_free_page_moves_cursor_without_claim :
    (page_ftl_get_free_page sample_device sample_format stale_counter_page_ftl).map
      (fun r => (r.paddr, r.claimed, r.pgftl.alloc_segnum)) =
      some ({ lpn := sample_format.PADDR_EMPTY }, none, 1) ∧
    stale_counter_page_ftl.alloc_segnum = 0 := by
  decide

/-! ## The frame of the translation table -/

/-- C20: a successful `page_ftl_update_map(s, ppn)` with a 32-bit `ppn` overwrites the table
entry at index `s / page_size` and no other: afterwards `page_ftl_get_map(t)` returns `ppn` for
every sector `t` of the same logical page and, for every other sector in range, the address it
returned before; entries at other indices, the segments and `alloc_segnum` are unchanged.
`page_ftl_get_map` is a function of the state and writes nothing. -/
theorem page_ftl_update_map_frame (dev : device) (fmt : device_address_format)
    (pgftl : page_ftl) (s ppn : Nat)
    (hok : (page_ftl_update_map dev pgftl s ppn).1 = 0) (hppn : ppn < 2 ^ 32) :
    (∀ t, t / dev.page_size < dev.total_size / dev.page_size + 1 →
      page_ftl_get_map dev fmt (page_ftl_update_map dev pgftl s ppn).2 t =
        if t / dev.page_size = s / dev.page_size then { lpn := ppn }
        else page_ftl_get_map dev fmt pgftl t) ∧
    (∀ i, i ≠ s / dev.page_size →
      (page_ftl_update_map dev pgftl s ppn).2.trans_map i = pgftl.trans_map i) ∧
    (page_ftl_update_map dev pgftl s ppn).2.trans_map (s / dev.page_size) = ppn ∧
    (page_ftl_update_map dev pgftl s ppn).2.segments = pgftl.segments ∧
    (page_ftl_update_map dev pgftl s ppn).2.alloc_segnum = pgftl.alloc_segnum := by
  have hin : ¬ page_ftl_get_lpn dev s ≥ page_ftl_get_map_size dev / sizeof_uint32 := by
    intro hge
    simp [page_ftl_update_map, if_pos hge, EINVAL] at hok
  have hupd : page_ftl_update_map dev pgftl s ppn =
      (0, { pgftl with trans_map :=
        Function.update pgftl.trans_map (page_ftl_get_lpn dev s) (ppn % 2 ^ 32) }) := by
    simp only [page_ftl_update_map, if_neg hin]
  rw [hupd]
  refine ⟨fun t _ => ?_, fun i hi => ?_, ?_, rfl, rfl⟩
  · have hs : ¬ s / dev.page_size ≥ page_ftl_get_map_size dev / sizeof_uint32 := hin
    by_cases e : t / dev.page_size = s / dev.page_size
    · have htin : ¬ t / dev.page_size ≥ page_ftl_get_map_size dev / sizeof_uint32 := by
        rw [e]; exact hs
      simp only [page_ftl_get_map, page_ftl_get_lpn, if_neg htin]
      rw [if_pos e, e, Function.update_same, Nat.mod_eq_of_lt hppn]
    · by_cases htin : t / dev.page_size ≥ page_ftl_get_map_size dev / sizeof_uint32
      · simp only [page_ftl_get_map, page_ftl_get_lpn, if_pos htin, if_neg e]
      · simp only [page_ftl_get_map, page_ftl_get_lpn, if_neg htin, if_neg e]
        rw [Function.update_noteq e]
  · simp only [page_ftl_get_lpn]
    rw [Function.update_noteq hi]
  · simp only [page_ftl_get_lpn]
    rw [Function.update_same, Nat.mod_eq_of_lt hppn]

/-- The frame theorem applied to sector 13 of `sample_device` and the address 4097: sector 14
lies on the same logical page, sector 20 on another one. -/
theorem page_ftl_update_map_frame_witness :
    (page_ftl_update_map sample_device (fresh_page_ftl sample_device sample_format) 13 4097).1
      = 0 ∧
    (4097 : Nat) < 2 ^ 32 ∧
    page_ftl_get_map sample_device sample_format
      (page_ftl_update_map sample_device (fresh_page_ftl sample_device sample_format)
        13 4097).2 14 = { lpn := 4097 } ∧
    page_ftl_get_map sample_device sample_format
      (page_ftl_update_map sample_device (fresh_page_ftl sample_device sample_format)
        13 4097).2 20 =
      page_ftl_get_map sample_device sample_format
        (fresh_page_ftl sample_device sample_format) 20 :=
  ⟨by decide, by decide,
    by
      have h := (page_ftl_update_map_frame sample_device sample_format
        (fresh_page_ftl sample_device sample_format) 13 4097 (by decide) (by decide)).1 14
        (by decide)
      simpa using h,
    by
      have h := (page_ftl_update_map_frame sample_device sample_format
        (fresh_page_ftl sample_device sample_format) 13 4097 (by decide) (by decide)).1 20
        (by decide)
      simpa using h⟩

/-! ## Packed addresses and the empty address -/

theorem find_first_zero_bit_low_bits_set (r size : Nat) (h : r < size) :
    find_first_zero_bit (2 ^ r - 1) size 0 = some r :=
  find_first_zero_bit_prefix h (fun i _ => Nat.testBit_two_pow_sub_one r i)

theorem nr_unset_bits_low_bits_set (r : Nat) : nr_unset_bits (2 ^ r - 1) (r + 1) = 1 := by
  have h0 : nr_unset_bits (2 ^ r - 1) r = 0 :=
    nr_unset_bits_eq_zero (fun j hj => by
      simp only [get_bit]
      rw [Nat.testBit_two_pow_sub_one]
      exact decide_eq_true hj)
  have h1 : get_bit (2 ^ r - 1) r = false := by
    simp only [get_bit]
    rw [Nat.testBit_two_pow_sub_one]
    simp
  rw [nr_unset_bits_succ, h0, h1]
  rfl

/-- Whatever the layout, segment 0 with the offset equal to a 32-bit reserved scalar packs to
that scalar. -/
theorem packed_address_of_offset (fmt : device_address_format) (e : Nat) (he : e < 2 ^ 32) :
    device_address_pack fmt 0 e = { lpn := e } := by
  simp [device_address_pack]
  omega

/-- Whatever 32-bit scalar is reserved, a layout whose fields cover the scalar packs some pair
of field values to it. -/
theorem packed_address_reaches_every_scalar (fmt : device_address_format) (e : Nat)
    (hfit : fmt.block_shift + fmt.block_bits = 32) (he : e < 2 ^ 32) :
    ∃ seg off, seg < 2 ^ fmt.block_bits ∧ off < 2 ^ fmt.block_shift ∧
      device_address_pack fmt seg off = { lpn := e } := by
  have hpos : 0 < 2 ^ fmt.block_shift := Nat.two_pow_pos fmt.block_shift
  have hseg : e / 2 ^ fmt.block_shift < 2 ^ fmt.block_bits := by
    apply Nat.div_lt_of_lt_mul
    rw [← Nat.pow_add, hfit]
    exact he
  have hoff : e % 2 ^ fmt.block_shift < 2 ^ fmt.block_shift := Nat.mod_lt _ hpos
  refine ⟨e / 2 ^ fmt.block_shift, e % 2 ^ fmt.block_shift, hseg, hoff, ?_⟩
  have h := device_address_pack_lpn fmt _ _ (by omega) hseg hoff
  rw [Nat.div_add_mod] at h
  cases hp : device_address_pack fmt (e / 2 ^ fmt.block_shift) (e % 2 ^ fmt.block_shift) with
  | mk lpn =>
    rw [hp] at h
    simp only at h
    rw [h]

/-- The state `last_slot_page_ftl` of the largest geometry `sample_format` has fields for
satisfies the counter/bitmap invariant; the last slot of the last segment is a legal pair, the
address packed from it is the scalar `PADDR_EMPTY`, and the call claims that slot and returns
that address. -/
theorem packed_address_counterexample :
    bitmap_synced full_geometry_device last_slot_page_ftl ∧
    (2 ^ 19 - 1 < full_geometry_device.nr_segments ∧
      2 ^ 13 - 1 < full_geometry_device.pages_per_segment) ∧
    device_address_pack sample_format (2 ^ 19 - 1) (2 ^ 13 - 1) =
      { lpn := sample_format.PADDR_EMPTY } ∧
    ∃ probes, page_ftl_get_free_page full_geometry_device sample_format last_slot_page_ftl =
      some { paddr := { lpn := sample_format.PADDR_EMPTY },
             pgftl := claim_page last_slot_page_ftl (2 ^ 19 - 1) (2 ^ 13 - 1),
             probes := probes,
             claimed := some (2 ^ 19 - 1, 2 ^ 13 - 1) } := by
  have hpack : device_address_pack sample_format (2 ^ 19 - 1) (2 ^ 13 - 1) =
      { lpn := sample_format.PADDR_EMPTY } := by decide
  refine ⟨fun seg _ => (nr_unset_bits_low_bits_set (2 ^ 13 - 1)).symm, by decide, hpack, ?_⟩
  have hoff : find_first_zero_bit (last_slot_page_ftl.segments (2 ^ 19 - 1)).use_bits
      full_geometry_device.pages_per_segment 0 = some (2 ^ 13 - 1) :=
    find_first_zero_bit_low_bits_set (2 ^ 13 - 1) (2 ^ 13) (by decide)
  obtain ⟨probes, hr⟩ := page_ftl_get_free_page_at full_geometry_device sample_format
    last_slot_page_ftl 0 (2 ^ 19 - 1) (2 ^ 13 - 1) (by decide) (by decide)
    (by decide) hoff (fun j hj => by omega)
  rw [hpack] at hr
  exact ⟨probes, hr⟩

/-- C13 (amended): for a geometry that fits the bit-fields of the address (`nr_segments` at most
`2^block_bits`, `pages_per_segment` at most `2^block_shift`, the fields within the 32-bit scalar)
and that does not reach the pair of fields stored in `PADDR_EMPTY` (`nr_segments` at most the
block field of `PADDR_EMPTY`, or `pages_per_segment` at most its low bits), the address built for
every legal pair (segment index below `nr_segments`, offset below `pages_per_segment`) differs
from `PADDR_EMPTY`, and the pair can be read back from it. -/
theorem packed_address_ne_empty (dev : device) (fmt : device_address_format)
    (hfit : fmt.block_shift + fmt.block_bits ≤ 32)
    (hn : dev.nr_segments ≤ 2 ^ fmt.block_bits)
    (hp : dev.pages_per_segment ≤ 2 ^ fmt.block_shift)
    (hres : dev.nr_segments ≤ device_address_block fmt { lpn := fmt.PADDR_EMPTY } ∨
      dev.pages_per_segment ≤ fmt.PADDR_EMPTY % 2 ^ fmt.block_shift)
    (seg off : Nat) (hseg : seg < dev.nr_segments) (hoff : off < dev.pages_per_segment) :
    device_address_pack fmt seg off ≠ { lpn := fmt.PADDR_EMPTY } ∧
    device_address_block fmt (device_address_pack fmt seg off) = seg ∧
    (device_address_pack fmt seg off).lpn % 2 ^ fmt.block_shift = off := by
  obtain ⟨h1, h2⟩ := device_address_unpack fmt seg off hfit (by omega) (by omega)
  refine ⟨fun e => ?_, h1, h2⟩
  rw [e] at h1 h2
  simp only at h2
  rcases hres with h | h
  · omega
  · omega

/-- The packing theorem applied to `sample_device` and `sample_format`, at slot 1 of
segment 1. -/
theorem packed_address_ne_empty_witness :
    sample_format.block_shift + sample_format.block_bits ≤ 32 ∧
    sample_device.nr_segments ≤
      device_address_block sample_format { lpn := sample_format.PADDR_EMPTY } ∧
    device_address_pack sample_format 1 1 ≠ { lpn := sample_format.PADDR_EMPTY } ∧
    device_address_block sample_format (device_address_pack sample_format 1 1) = 1 ∧
    (device_address_pack sample_format 1 1).lpn % 2 ^ sample_format.block_shift = 1 :=
  ⟨by decide, by decide,
    packed_address_ne_empty sample_device sample_format (by decide) (by decide) (by decide)
      (Or.inl (by decide)) 1 1 (by decide) (by decide)⟩

/-! ## Fetching and inserting -/

theorem lru_scan_some {key : Nat} :
    ∀ {nodes : List lru_node} {i : Nat}, lru_scan key nodes = some i →
      ∃ node, nodes[i]? = some node ∧ node.key = key ∧
        ∀ j n, j < i → nodes[j]? = some n → n.key ≠ key := by
  intro nodes
  induction nodes with
  | nil => intro i h; simp [lru_scan] at h
  | cons node rest ih =>
    intro i h
    rw [lru_scan] at h
    by_cases hk : node.key = key
    · rw [if_pos hk] at h
      injection h with h
      subst h
      exact ⟨node, by simp, hk, fun j n hj _ => by omega⟩
    · rw [if_neg hk] at h
      cases hs : lru_scan key rest with
      | none => rw [hs] at h; simp at h
      | some i' =>
        rw [hs] at h
        simp at h
        subst h
        obtain ⟨n', h1, h2, h3⟩ := ih hs
        refine ⟨n', by simpa using h1, h2, fun j n hj hn => ?_⟩
        cases j with
        | zero =>
          simp at hn
          subst hn
          exact hk
        | succ j =>
          simp at hn
          exact h3 j n (by omega) hn

theorem lru_scan_of_mem {key : Nat} :
    ∀ {nodes : List lru_node}, key ∈ nodes.map (fun n => n.key) →
      ∃ i, lru_scan key nodes = some i := by
  intro nodes
  induction nodes with
  | nil => intro h; simp at h
  | cons node rest ih =>
    intro h
    rw [lru_scan]
    by_cases hk : node.key = key
    · exact ⟨0, by rw [if_pos hk]⟩
    · rw [if_neg hk]
      simp at h
      rcases h with h | h
      · exact absurd h.symm hk
      · obtain ⟨i, hi⟩ := ih (by simpa using h)
        exact ⟨i + 1, by rw [hi]; rfl⟩

theorem eraseIdx_perm_cons {α : Type} :
    ∀ (l : List α) (i : Nat) (a : α), l[i]? = some a → (a :: l.eraseIdx i).Perm l := by
  intro l
  induction l with
  | nil => intro i a h; simp at h
  | cons b rest ih =>
    intro i a h
    cases i with
    | zero =>
      simp at h
      subst h
      simp
    | succ i =>
      simp at h
      have := ih i a h
      rw [List.eraseIdx_cons_succ]
      exact (List.Perm.swap b a _).trans (List.Perm.cons b this)

/-- C11: for a cache and a key `k` with at least one resident entry, `lru_get(k)` returns the
value of the most recently used entry with key `k` (the first one met from `head->next`), links
that entry at the most recently used end and keeps the other entries in their order; the
resident entries are the same up to this reordering, and `size`, `capacity` and the callback are
as before.  `lru_get` contains no invocation of the release callback. -/
theorem lru_get_promotes (cache : lru_cache) (k : Nat) (h : k ∈ lru_keys cache) :
    ∃ i node, cache.nodes[i]? = some node ∧ node.key = k ∧
      (∀ j n, j < i → cache.nodes[j]? = some n → n.key ≠ k) ∧
      (lru_get cache k).1 = node.value ∧
      (lru_get cache k).2.nodes = node :: cache.nodes.eraseIdx i ∧
      cache.nodes.eraseIdx i = cache.nodes.take i ++ cache.nodes.drop (i + 1) ∧
      (lru_get cache k).2.nodes.Perm cache.nodes ∧
      (lru_get cache k).2.size = cache.size ∧
      (lru_get cache k).2.capacity = cache.capacity ∧
      (lru_get cache k).2.deallocate = cache.deallocate := by
  obtain ⟨i, hi⟩ := lru_scan_of_mem h
  obtain ⟨node, h1, h2, h3⟩ := lru_scan_some hi
  have hget : lru_get cache k =
      (node.value, { cache with nodes := node :: cache.nodes.eraseIdx i }) := by
    simp [lru_get, lru_find_node, hi, lru_deref, lru_delete_node, lru_node_insert, h1]
  refine ⟨i, node, h1, h2, h3, ?_, ?_, List.eraseIdx_eq_take_drop_succ _ _, ?_, ?_, ?_, ?_⟩
  · rw [hget]
  · rw [hget]
  · rw [hget]; exact eraseIdx_perm_cons _ _ _ h1
  · rw [hget]
  · rw [hget]
  · rw [hget]

/-- The fetch theorem applied to key 1 of the cache holding the keys 2 and 1. -/
theorem lru_get_promotes_witness :
    1 ∈ lru_keys lru_two_entries ∧
    ∃ i node, lru_two_entries.nodes[i]? = some node ∧ node.key = 1 ∧
      (∀ j n, j < i → lru_two_entries.nodes[j]? = some n → n.key ≠ 1) ∧
      (lru_get lru_two_entries 1).1 = node.value ∧
      (lru_get lru_two_entries 1).2.nodes = node :: lru_two_entries.nodes.eraseIdx i ∧
      lru_two_entries.nodes.eraseIdx i =
        lru_two_entries.nodes.take i ++ lru_two_entries.nodes.drop (i + 1) ∧
      (lru_get lru_two_entries 1).2.nodes.Perm lru_two_entries.nodes ∧
      (lru_get lru_two_entries 1).2.size = lru_two_entries.size ∧
      (lru_get lru_two_entries 1).2.capacity = lru_two_entries.capacity ∧
      (lru_get lru_two_entries 1).2.deallocate = lru_two_entries.deallocate :=
  ⟨by decide, lru_get_promotes lru_two_entries 1 (by decide)⟩

theorem lru_head_prev_concat (cache : lru_cache) (init : List lru_node) (last : lru_node)
    (hn : cache.nodes = init ++ [last]) : lru_head_prev cache = lru_ptr.node init.length := by
  simp [lru_head_prev, hn]

theorem lru_do_evict_one_concat (cache : lru_cache) (f : Nat → Nat → Int)
    (init : List lru_node) (last : lru_node)
    (hn : cache.nodes = init ++ [last]) (hd : cache.deallocate = some f) :
    __lru_do_evict cache =
      (f last.key last.value, { cache with nodes := init }, [(last.key, last.value)]) := by
  simp [__lru_do_evict, lru_head_prev_concat cache init last hn, lru_deref, lru_delete_node,
    hn, hd, List.eraseIdx_append_of_length_le]

/-- C12: for a cache as the interface keeps it (`size` is the number of linked nodes, `capacity`
is not zero) with a release callback that always succeeds and an eviction batch of one,
`lru_put(k, v)` with a successful allocation returns `0`; the new recency list, most recent
first, is `(k, v)` followed by the old list, without the old list's last (least recently used)
entry exactly when `size >= capacity` held on entry; the callback is invoked on that dropped
entry and on nothing else.  No existing-key check is made: every old entry that is not dropped is
still resident behind the new one, also when its key is `k`. -/
theorem lru_put_effect (cache : lru_cache) (f : Nat → Nat → Int) (k v : Nat)
    (hd : cache.deallocate = some f) (hf : ∀ a b, f a b = 0)
    (hsize : cache.size = cache.nodes.length) (hcap : 0 < cache.capacity) :
    (lru_put 1 true cache k v).1 = 0 ∧
    (cache.size < cache.capacity →
      (lru_put 1 true cache k v).2.1.nodes = { key := k, value := v } :: cache.nodes ∧
      (lru_put 1 true cache k v).2.2 = []) ∧
    (cache.capacity ≤ cache.size →
      ∃ last, cache.nodes.getLast? = some last ∧
        (lru_put 1 true cache k v).2.1.nodes =
          { key := k, value := v } :: cache.nodes.dropLast ∧
        (lru_put 1 true cache k v).2.2 = [(last.key, last.value)]) ∧
    (∀ n, n ∈ cache.nodes.dropLast → n ∈ (lru_put 1 true cache k v).2.1.nodes.tail) := by
  by_cases hfull : cache.capacity ≤ cache.size
  · have hne : cache.nodes ≠ [] := by
      intro e
      rw [e] at hsize
      simp at hsize
      omega
    rcases List.eq_nil_or_concat cache.nodes with e | ⟨init, last, e⟩
    · exact absurd e hne
    · rw [List.concat_eq_append] at e
      have hev := lru_do_evict_one_concat cache f init last e hd
      have hput : lru_put 1 true cache k v =
          (0, { cache with
                  nodes := { key := k, value := v } :: init,
                  size := ((cache.size + (2 ^ 64 - 1)) % 2 ^ 64 + 1) % 2 ^ 64 },
            [(last.key, last.value)]) := by
        simp [lru_put, hfull, lru_do_evict, hev, hf, lru_alloc_node, lru_node_insert]
      rw [hput, e]
      refine ⟨rfl, fun h => by omega, fun _ => ⟨last, by simp, by simp, rfl⟩, ?_⟩
      intro n hn
      simpa using hn
  · have hput : lru_put 1 true cache k v =
        (0, { cache with
                nodes := { key := k, value := v } :: cache.nodes,
                size := (cache.size + 1) % 2 ^ 64 }, []) := by
      simp [lru_put, hfull, lru_alloc_node, lru_node_insert]
    rw [hput]
    refine ⟨rfl, fun _ => ⟨rfl, rfl⟩, fun h => absurd h hfull, ?_⟩
    intro n hn
    exact List.dropLast_subset _ hn

/-- The insertion theorem applied to `lru_put(1, 30)` on the full cache holding the keys 2
and 1: the entry `(1, 10)` is dropped and released. -/
theorem lru_put_effect_witness :
    (lru_fresh 2 (some release_ok)).deallocate = some release_ok ∧
    (lru_put 1 true (lru_run 1 (lru_fresh 2 (some release_ok))
      [lru_call.put 1 10 true, lru_call.put 2 20 true]) 1 30).1 = 0 ∧
    (lru_put 1 true (lru_run 1 (lru_fresh 2 (some release_ok))
      [lru_call.put 1 10 true, lru_call.put 2 20 true]) 1 30).2.2 = [(1, 10)] :=
  ⟨rfl,
    (lru_put_effect (lru_run 1 (lru_fresh 2 (some release_ok))
      [lru_call.put 1 10 true, lru_call.put 2 20 true]) release_ok 1 30 rfl
      (fun _ _ => rfl) (by decide) (by decide)).1,
    by
      obtain ⟨last, h1, _, h3⟩ := (lru_put_effect (lru_run 1 (lru_fresh 2 (some release_ok))
        [lru_call.put 1 10 true, lru_call.put 2 20 true]) release_ok 1 30 rfl
        (fun _ _ => rfl) (by decide) (by decide)).2.2.1 (by decide)
      have hl : last = { key := 1, value := 10 } := by
        have h0 : (lru_run 1 (lru_fresh 2 (some release_ok))
          [lru_call.put 1 10 true, lru_call.put 2 20 true]).nodes.getLast? =
            some { key := 1, value := 10 } := by decide
        rw [h0] at h1
        injection h1 with h1
        exact h1.symm
      rw [h3, hl]⟩

theorem lru_put_room (nr_evict : Nat) (cache : lru_cache) (k v : Nat) (mem : Bool)
    (hroom : ¬ cache.capacity ≤ cache.size) :
    lru_put nr_evict mem cache k v =
      if mem then
        (0, { cache with nodes := { key := k, value := v } :: cache.nodes,
                         size := (cache.size + 1) % 2 ^ 64 }, [])
      else (-ENOMEM, cache, []) := by
  cases mem <;> simp [lru_put, hroom, lru_alloc_node, lru_node_insert]

theorem lru_put_full (cache : lru_cache) (f : Nat → Nat → Int) (init : List lru_node)
    (last : lru_node) (k v : Nat) (mem : Bool)
    (hn : cache.nodes = init ++ [last]) (hd : cache.deallocate = some f)
    (hf : ∀ a b, f a b = 0) (hfull : cache.capacity ≤ cache.size) :
    lru_put 1 mem cache k v =
      if mem then
        (0, { cache with nodes := { key := k, value := v } :: init,
                         size := ((cache.size + (2 ^ 64 - 1)) % 2 ^ 64 + 1) % 2 ^ 64 },
          [(last.key, last.value)])
      else
        (-ENOMEM, { cache with nodes := init,
                               size := (cache.size + (2 ^ 64 - 1)) % 2 ^ 64 },
          [(last.key, last.value)]) := by
  have hev := lru_do_evict_one_concat cache f init last hn hd
  cases mem <;>
    simp [lru_put, hfull, lru_do_evict, hev, hf, lru_alloc_node, lru_node_insert]

theorem lru_put_well_formed (cache : lru_cache) (f : Nat → Nat → Int) (k v : Nat) (mem : Bool)
    (hd : cache.deallocate = some f) (hf : ∀ a b, f a b = 0)
    (hw : lru_well_formed cache) (hmax : cache.capacity < 2 ^ 64) :
    lru_well_formed (lru_put 1 mem cache k v).2.1 ∧
    (lru_put 1 mem cache k v).2.1.deallocate = some f ∧
    (lru_put 1 mem cache k v).2.1.capacity = cache.capacity := by
  obtain ⟨h1, h2, h3⟩ := hw
  by_cases hfull : cache.capacity ≤ cache.size
  · rcases List.eq_nil_or_concat cache.nodes with e | ⟨init, last, e⟩
    · rw [e] at h1
      simp at h1
      omega
    · rw [List.concat_eq_append] at e
      rw [lru_put_full cache f init last k v mem e hd hf hfull]
      have hlen : cache.size = init.length + 1 := by rw [h1, e]; simp
      cases mem
      · simp only [lru_well_formed, List.length_cons]
        refine ⟨⟨?_, ?_, h3⟩, hd, rfl⟩ <;> simp <;> omega
      · simp only [lru_well_formed, List.length_cons]
        refine ⟨⟨?_, ?_, h3⟩, hd, rfl⟩ <;> simp <;> omega
  · rw [lru_put_room 1 cache k v mem hfull]
    cases mem
    · exact ⟨⟨h1, h2, h3⟩, hd, rfl⟩
    · simp only [lru_well_formed, List.length_cons]
      refine ⟨⟨?_, ?_, h3⟩, hd, rfl⟩ <;> simp <;> omega

theorem lru_get_well_formed (cache : lru_cache) (k : Nat) (hw : lru_well_formed cache) :
    lru_well_formed (lru_get cache k).2 ∧
    (lru_get cache k).2.deallocate = cache.deallocate ∧
    (lru_get cache k).2.capacity = cache.capacity := by
  by_cases h : k ∈ lru_keys cache
  · obtain ⟨i, hi⟩ := lru_scan_of_mem h
    obtain ⟨node, h1, _, _⟩ := lru_scan_some hi
    have hget : lru_get cache k =
        (node.value, { cache with nodes := node :: cache.nodes.eraseIdx i }) := by
      simp [lru_get, lru_find_node, hi, lru_deref, lru_delete_node, lru_node_insert, h1]
    rw [hget]
    have hlen := (eraseIdx_perm_cons cache.nodes i node h1).length_eq
    obtain ⟨a, b, c⟩ := hw
    exact ⟨⟨by simp only; rw [hlen]; exact a, b, c⟩, rfl, rfl⟩
  · rw [lru_get_miss cache k h]
    exact ⟨hw, rfl, rfl⟩

/-- Every cache made by `lru_init` and any sequence of `lru_put` and `lru_get` calls, with a
release callback that always succeeds and an eviction batch of one, counts in `size` the number
of linked nodes and keeps `size` within `capacity`. -/
theorem lru_run_well_formed (f : Nat → Nat → Int) (hf : ∀ a b, f a b = 0) :
    ∀ (calls : List lru_call) (cache : lru_cache), cache.deallocate = some f →
      lru_well_formed cache → cache.capacity < 2 ^ 64 →
      lru_well_formed (lru_run 1 cache calls) ∧
      (lru_run 1 cache calls).deallocate = some f ∧
      (lru_run 1 cache calls).capacity = cache.capacity := by
  intro calls
  induction calls with
  | nil => intro cache hd hw _; exact ⟨hw, hd, rfl⟩
  | cons c rest ih =>
    intro cache hd hw hmax
    cases c with
    | put k v mem =>
      obtain ⟨a1, a2, a3⟩ := lru_put_well_formed cache f k v mem hd hf hw hmax
      obtain ⟨b1, b2, b3⟩ := ih _ a2 a1 (by rw [a3]; exact hmax)
      exact ⟨b1, b2, b3.trans a3⟩
    | get k =>
      obtain ⟨a1, a2, a3⟩ := lru_get_well_formed cache k hw
      obtain ⟨b1, b2, b3⟩ := ih _ (by rw [a2]; exact hd) a1 (by rw [a3]; exact hmax)
      exact ⟨b1, b2, b3.trans a3⟩

theorem lru_fresh_well_formed (capacity : Nat) (deallocate : Option (Nat → Nat → Int))
    (h : capacity ≠ 0) : lru_well_formed (lru_fresh capacity deallocate) :=
  ⟨rfl, Nat.zero_le _, Nat.pos_of_ne_zero h⟩

/-! ## Callback failures -/

/-- C14 (the code at the failing input): on the cache holding `(2, 20)` and `(1, 10)` with a
callback failing on key 1, `lru_free` invokes the callback on `(2, 20)`, which succeeds, then on
`(1, 10)`, and returns the failure `-1`; the cache is left with both nodes still linked, and a
second `lru_free` invokes the callback on `(2, 20)` again. -/
theorem lru_free_retry_releases_twice :
    lru_entries lru_two_entries = [(2, 20), (1, 10)] ∧
    (lru_free (some lru_two_entries)).1 = -1 ∧
    (lru_free (some lru_two_entries)).2.2 = [(2, 20), (1, 10)] ∧
    (lru_free (some lru_two_entries)).2.1.map lru_entries = some [(2, 20), (1, 10)] ∧
    (lru_free (lru_free (some lru_two_entries)).2.1).2.2 = [(2, 20), (1, 10)] := by
  decide

/-- C15 (the code at the failing input): on the full cache `lru_full_failing` (capacity 1, key 1
resident, callback always failing) `lru_do_evict` stops at the first failure and returns the
callback's `-1`, also for a batch of three, yet `lru_put(2, 20)`, whose eviction step is that
failing call, returns `0`. -/
theorem lru_put_hides_release_failure :
    lru_full_failing.size = 1 ∧ lru_full_failing.capacity = 1 ∧
    (lru_do_evict lru_full_failing 1).1 = -1 ∧
    (lru_do_evict lru_full_failing 3).1 = -1 ∧
    (lru_do_evict lru_full_failing 3).2.2 = [(1, 10)] ∧
    (lru_put 1 true lru_full_failing 2 20).2.2 = [(1, 10)] ∧
    (lru_put 1 true lru_full_failing 2 20).1 = 0 := by
  decide

end FTL
